import Mathlib

/-!
Verification of `pylib/components.py` (RTOS module assembler).

This file gives a shallow embedding, in Lean 4, of the pure core of
`pylib/components.py`: typedef sorting (`sort_typedefs`), sectioned-file
scanning (`_parse_sectioned_file`), component lookup and parsing
(`Component.parse`, `ArchitectureComponent.parse`), section aggregation
(`RtosSkeleton.get_module_sections`), recursive schema merging
(`_merge_schema_entries`) and header rendering (`RtosModule._render`).

Python strings are modelled as Lean `String`s; the handful of Python string
operations the code uses (`str.split()`, `str.split('\n')`, `str.rstrip()`,
`str.strip()`, slicing, `'sep'.join`) are re-implemented below on `List Char`
so that all definitions are executable and reducible by the kernel.
Python dictionaries (which preserve insertion order) are modelled as
association lists with the corresponding update-or-append operation.
External collaborators (the filesystem, `base_to_top_paths` from
`pylib/utils.py`, and the pystache templating engine) are abstracted as
components of an explicit environment record.
-/

namespace Components

/-! ## Python string primitives, on `List Char` -/

/-- The whitespace test used to model Python's `str.split()` / `str.strip()`. -/
def pyWs (c : Char) : Bool := c.isWhitespace

/-- Whitespace-splitting of a character list, as Python's `str.split()`:
split on runs of whitespace, discarding empty pieces. -/
def pySplitCh : List Char → List (List Char)
  | [] => []
  | [c] => if pyWs c then [] else [[c]]
  | c :: d :: cs =>
    if pyWs c then pySplitCh (d :: cs)
    else
      match pySplitCh (d :: cs), pyWs d with
      | r, true => [c] :: r
      | [], false => [[c]]
      | t :: ts, false => (c :: t) :: ts

/-- Newline-splitting of a character list, as Python's `str.split('\n')`:
pieces may be empty, and the result is never the empty list. -/
def splitNlCh : List Char → List (List Char)
  | [] => [[]]
  | c :: cs =>
    if c = '\n' then [] :: splitNlCh cs
    else
      match splitNlCh cs with
      | [] => [[c]]
      | p :: ps => (c :: p) :: ps

/-- Python's `str.rstrip()` on a character list. -/
def pyRstripCh (l : List Char) : List Char := ((l.reverse).dropWhile pyWs).reverse

/-- Python's `str.strip()` on a character list. -/
def pyStripCh (l : List Char) : List Char := pyRstripCh (l.dropWhile pyWs)

/-- String-level `str.split()`. -/
def pySplit (s : String) : List String := (pySplitCh s.data).map String.mk

/-- String-level `str.split('\n')`. -/
def pySplitNl (s : String) : List String := (splitNlCh s.data).map String.mk

/-- String-level `str.rstrip()`. -/
def pyRstrip (s : String) : String := String.mk (pyRstripCh s.data)

/-- String-level `str.strip()`. -/
def pyStrip (s : String) : String := String.mk (pyStripCh s.data)

/-- Python's `'sep'.join(pieces)`. -/
def joinSep (sep : String) : List String → String
  | [] => ""
  | [s] => s
  | s :: rest => s ++ sep ++ joinSep sep rest

/-- Does the string end with the single character `c`? (Python `str.endswith`
with a one-character argument.) -/
def endsWithChar (s : String) (c : Char) : Bool := s.data.getLast? == some c

/-- Drop the final character (Python slice `s[:-1]`). -/
def strDropLast (s : String) : String := String.mk s.data.dropLast

/-- Boolean prefix test on character lists. -/
def chPre : List Char → List Char → Bool
  | [], _ => true
  | _ :: _, [] => false
  | a :: as, b :: bs => a == b && chPre as bs

/-- Python `s.startswith(p)`. -/
def pyStartsWith (s p : String) : Bool := chPre p.data s.data

/-- Python `s.endswith(p)`. -/
def pyEndsWith (s p : String) : Bool := chPre p.data.reverse s.data.reverse

/-- Python slice `s[3:-3]`. -/
def innerSlice3 (s : String) : String :=
  String.mk ((s.data.take (s.data.length - 3)).drop 3)

/-! ## Ordered dictionaries (Python `dict` preserves insertion order) -/

/-- Lookup in an association list (Python `d[k]` / `d.get(k)`). -/
def alookup (k : String) : List (String × α) → Option α
  | [] => none
  | p :: ps => if p.1 = k then some p.2 else alookup k ps

/-- Python `d[k] = v`: update the value in place if the key is present
(keeping its position), otherwise append the new binding at the end. -/
def dictSet (d : List (String × α)) (k : String) (v : α) : List (String × α) :=
  if (alookup k d).isSome then
    d.map (fun p => if p.1 = k then (p.1, v) else p)
  else d ++ [(k, v)]

/-- Python `base.copy(); base.update(upd)`: apply `dictSet` for each pair of
`upd`, in order, starting from `base`. -/
def pyUpdate (base upd : List (String × α)) : List (String × α) :=
  upd.foldl (fun acc kv => dictSet acc kv.1 kv.2) base

/-! ## `sort_typedefs` (components.py lines 84-130)

A typedef pair `(new_type, old_type)` as extracted from one
`typedef <old> <new>;` line. -/

structure TD where
  new : String
  old : String
deriving DecidableEq, Repr

/-- Parse one non-blank typedef line (the body of the `for l in ...` loop of
`sort_typedefs`): the line must end with `;`, its whitespace-separated parts
must start with the keyword `typedef`; the last part is the new type and the
middle parts, re-joined with single spaces, are the old type. -/
def pyParseLine (l : String) : Except String TD :=
  if endsWithChar l ';' then
    match pySplit (strDropLast l) with
    | [] => Except.error "IndexError: list index out of range"
    | p0 :: rest =>
      if p0 = "typedef" then
        Except.ok ⟨rest.getLastD p0, joinSep " " rest.dropLast⟩
      else Except.error "Expect typedef line to startwith typedef"
  else Except.error ("Expect a typedef line to end with semicolon: " ++ l)

/-- Parse the lines of a typedef block, skipping empty lines, stopping at the
first malformed line (the parsing loop of `sort_typedefs`). -/
def parseTypedefList : List String → Except String (List TD)
  | [] => Except.ok []
  | l :: ls =>
    if l = "" then parseTypedefList ls
    else
      match pyParseLine l with
      | Except.error e => Except.error e
      | Except.ok td =>
        match parseTypedefList ls with
        | Except.error e => Except.error e
        | Except.ok rest => Except.ok (td :: rest)

/-- Parse a whole typedef block: split on newlines, then parse each line. -/
def parseTypedefLines (s : String) : Except String (List TD) :=
  parseTypedefList (pySplitNl s)

/-- The `while i < len(r)` expansion loop of `sort_typedefs`: repeatedly take
the new-type name at index `i` of the placed list `r` as `check_type`, move
every still-pending pair whose old type equals it to the end of `r` (in
pending order), and advance `i`.  The loop of the Python source terminates
because each iteration advances `i` by one and `r` only grows by elements
taken from `pending`; the `fuel` argument is a structural bound on the number
of iterations, set large enough by the caller (`sortPairs`) to never run out. -/
def expandF : Nat → List TD → List TD → Nat → List TD
  | 0, r, _, _ => r
  | Nat.succ fuel, r, pending, i =>
    if h : i < r.length then
      expandF fuel
        (r ++ pending.filter (fun td => td.old == (r.get ⟨i, h⟩).new))
        (pending.filter (fun td => !(td.old == (r.get ⟨i, h⟩).new)))
        (i + 1)
    else r

/-- The first pass of `sort_typedefs`: the pairs whose old type does not
occur among the block's new-type names (`if old not in new_types`), kept in
original relative order. -/
def basePairs (l : List TD) : List TD :=
  l.filter (fun td => !((l.map TD.new).contains td.old))

/-- The pairs left pending after the first pass of `sort_typedefs`. -/
def pendPairs (l : List TD) : List TD :=
  l.filter (fun td => (l.map TD.new).contains td.old)

/-- The ordering pass of `sort_typedefs` on parsed pairs: first place every
pair whose old type is not among the new-type names (assumed defined in other
headers), in original order; then run the expansion loop. -/
def sortPairs (l : List TD) : List TD :=
  expandF ((basePairs l).length + (pendPairs l).length) (basePairs l) (pendPairs l) 0

/-- Render one pair back to a line: `'typedef {} {};'.format(old, new)`. -/
def renderTypedef (td : TD) : String := "typedef " ++ td.old ++ " " ++ td.new ++ ";"

/-- Render the sorted pairs: `'\n'.join(...)`. -/
def renderTypedefs (l : List TD) : String := joinSep "\n" (l.map renderTypedef)

/-- `sort_typedefs` (components.py lines 84-130): parse, order, re-render. -/
def sort_typedefs (s : String) : Except String String :=
  match parseTypedefLines s with
  | Except.error e => Except.error e
  | Except.ok l => Except.ok (renderTypedefs (sortPairs l))

/-- A pair is *reachable* when the first pass places it (its old type is not
among the block's new-type names) or the expansion loop can unlock it from a
reachable pair whose new type its old type names. -/
inductive Reachable (l : List TD) : TD → Prop where
  | base : ∀ {p : TD}, p ∈ l → p.old ∉ l.map TD.new → Reachable l p
  | step : ∀ {p q : TD}, p ∈ l → Reachable l q → p.old = q.new → Reachable l p

/-! ## `_parse_sectioned_file` (components.py lines 141-176)

The scan loop: each line is right-stripped; a line of the shape
`/*| name |*/` starts a (fresh) section buffer registered under `name`
in the (insertion-ordered) dictionary; other lines are appended to the
buffer of the most recently started section, if any. -/

/-- Is the right-stripped line a section marker line? -/
def isMarkerLine (raw : String) : Bool :=
  pyStartsWith (pyRstrip raw) "/*|" && pyEndsWith (pyRstrip raw) "|*/"

/-- The section name of a marker line: `line[3:-3].strip()`. -/
def markerSection (raw : String) : String := pyStrip (innerSlice3 (pyRstrip raw))

/-- `markerSection` guarded by `isMarkerLine`. -/
def markerNameOf (raw : String) : Option String :=
  if isMarkerLine raw then some (markerSection raw) else none

/-- The state of the scan loop: the sections dictionary and the name of the
section whose (aliased) buffer `current_lines` points to, if any. -/
structure ScanState where
  sections : List (String × List String)
  current : Option String
deriving DecidableEq, Repr

/-- One iteration of the scan loop of `_parse_sectioned_file`. -/
def scanStep (st : ScanState) (raw : String) : ScanState :=
  let line := pyRstrip raw
  if isMarkerLine raw then
    { sections := dictSet st.sections (markerSection raw) [], current := some (markerSection raw) }
  else
    match st.current with
    | none => st
    | some n =>
      { sections := st.sections.map (fun p => if p.1 = n then (p.1, p.2 ++ [line]) else p),
        current := some n }

/-- The scan phase of `_parse_sectioned_file` over the file's lines. -/
def scanSections (lines : List String) : List (String × List String) :=
  (lines.foldl scanStep ⟨[], none⟩).sections

/-- The fixed required-sections registry (components.py lines 9-25). -/
def REQUIRED_COMPONENT_SECTIONS : List String :=
  ["public_headers", "public_type_definitions", "public_structure_definitions",
   "public_object_like_macros", "public_function_like_macros",
   "public_extern_definitions", "public_function_definitions",
   "headers", "object_like_macros", "type_definitions", "structure_definitions",
   "extern_definitions", "function_definitions", "state", "function_like_macros",
   "functions", "public_functions"]

/-! ## Environment for the impure collaborators

`base_to_top_paths` comes from `pylib/utils.py` (outside the core source
file) and is, per the specification, an external path-resolution helper;
`os.path.exists`, file reading and the pystache templating engine are
likewise external.  They are modelled as unconstrained components of an
explicit environment record. -/

structure Env where
  /-- Modelled from the spec: `base_to_top_paths(topdir, d, name)` returns the
  ordered list of candidate locations from base to top. -/
  pathsBaseToTop : String → String → String → List String
  /-- `os.path.exists`. -/
  pathExists : String → Bool
  /-- `f.readlines()` for a file path, with trailing newlines kept or not
  (irrelevant: the scan right-strips every line). -/
  contents : String → List String
  /-- `pystache.render(in_data, config, name=name)`, strict mode, as a black
  box: arguments are the section data, the diagnostic name, and the
  configuration. -/
  render : String → String → List (String × String) → String

/-- `Component.find` (components.py lines 189-198): reverse the base-to-top
candidate list (so that the most specific repository wins) and return the
first existing path; error when none exists. -/
def componentFind (env : Env) (topdir partialPath : String) : Except String String :=
  match ((env.pathsBaseToTop topdir "components" partialPath).reverse).find? env.pathExists with
  | some p => Except.ok p
  | none => Except.error ("Unable to find component " ++ partialPath)

/-- `_parse_sectioned_file(fn, config)` (components.py lines 141-176): scan
the file into sections, render each section's joined and right-stripped
content with the supplied configuration, then require every name of the
required-sections registry to be present. -/
def parseSectionedFile (env : Env) (fn : String) (config : List (String × String)) :
    Except String (List (String × String)) :=
  let scanned := scanSections (env.contents fn)
  let rendered := scanned.map
    (fun p => (p.1, env.render (pyRstrip (joinSep "\n" p.2)) (fn ++ ": Section " ++ p.1) config))
  match REQUIRED_COMPONENT_SECTIONS.find? (fun s => !(alookup s rendered).isSome) with
  | some s => Except.error ("Couldnt find expected section " ++ s ++ " in file " ++ fn)
  | none => Except.ok rendered

/-- A component: display name, resource base name, base configuration
(`Component.__init__`, components.py lines 200-225). -/
structure PyComponent where
  name : String
  resourceName : String
  configuration : List (String × String)

/-- An `Architecture` value (components.py lines 292-298). -/
structure Architecture where
  name : String
  configuration : List (String × String)

/-- The second argument of `Component.parse`: Python is dynamically typed, so
the `parsing_configuration` may be a dictionary or anything else — in
practice the `Architecture` that `RtosSkeleton.get_module_sections` passes
uniformly to every component. -/
inductive ParseArg where
  | dict (d : List (String × String))
  | arch (a : Architecture)

/-- `isinstance(parsing_configuration, dict)`. -/
def ParseArg.isDict : ParseArg → Bool
  | .dict _ => true
  | .arch _ => false

/-- The configuration chosen by `Component.parse` (components.py lines
240-244): merge only when the argument is a dictionary, otherwise use the
component's base configuration unchanged. -/
def componentParseConfiguration (base : List (String × String)) : ParseArg → List (String × String)
  | .dict d => pyUpdate base d
  | _ => base

/-- `Component.parse` (components.py lines 227-256): choose the
configuration, try the naming patterns `{0}.c` then `{0}/{0}.c` for the
resource name, and delegate to the sectioned-file parser on the first
pattern that `Component.find` resolves. -/
def componentParse (env : Env) (c : PyComponent) (topdir : String) (arg : ParseArg) :
    Except String (List (String × String)) :=
  match ([c.resourceName ++ ".c",
          c.resourceName ++ "/" ++ c.resourceName ++ ".c"]).findSome?
        (fun n => (componentFind env topdir n).toOption) with
  | some comp => parseSectionedFile env comp (componentParseConfiguration c.configuration arg)
  | none => Except.error ("Unable to find component " ++ c.resourceName)

/-- The two architecture-specific naming patterns of
`ArchitectureComponent.parse` (components.py line 280), in source order:
`'{0}-{1}/{0}-{1}.c'` then `'{1}-{0}.c'` where `{0}` is formatted with
`arch.name` and `{1}` with the component's resource name. -/
def archPatterns (archName resource : String) : List String :=
  [archName ++ "-" ++ resource ++ "/" ++ archName ++ "-" ++ resource ++ ".c",
   resource ++ "-" ++ archName ++ ".c"]

/-- The configuration that `ArchitectureComponent.parse` supplies to the
sectioned-file parser (components.py line 289): `self._configuration`, the
component's own base configuration. -/
def archParseConfiguration (c : PyComponent) (_arch : Architecture) : List (String × String) :=
  c.configuration

/-- `ArchitectureComponent.parse` (components.py lines 266-289). -/
def archComponentParse (env : Env) (c : PyComponent) (topdir : String) (arch : Architecture) :
    Except String (List (String × String)) :=
  match (archPatterns arch.name c.resourceName).findSome?
        (fun n => (componentFind env topdir n).toOption) with
  | some comp => parseSectionedFile env comp (archParseConfiguration c arch)
  | none => Except.error ("Unable to find component " ++ c.resourceName ++
      " for architecture " ++ arch.name)

/-! ## `RtosSkeleton.get_module_sections` (components.py lines 329-339)

The aggregation loop, abstracted over the list of per-component parse
results (one insertion-ordered dictionary per successfully parsed
component). -/

/-- Fold one component's parse result into the accumulated module sections:
for each `(name, contents)` pair, append `contents` to the list registered
under `name`, creating a fresh list when the name is new. -/
def addComponentSections (acc : List (String × List String)) (res : List (String × String)) :
    List (String × List String) :=
  res.foldl
    (fun acc2 nc =>
      match alookup nc.1 acc2 with
      | none => dictSet acc2 nc.1 [nc.2]
      | some l => dictSet acc2 nc.1 (l ++ [nc.2]))
    acc

/-- `get_module_sections`, given the parse results of the skeleton's
components in component-list order. -/
def get_module_sections (results : List (List (String × String))) :
    List (String × List String) :=
  results.foldl addComponentSections []

/-! ## `_merge_schema_entries` (components.py lines 33-71) -/

/-- An XML schema entry: an optional `name` attribute and a list of child
entries (other attributes and text do not participate in the merge logic). -/
inductive SchemaEntry : Type where
  | mk : Option String → List SchemaEntry → SchemaEntry

/-- The `name` attribute of an entry. -/
def SchemaEntry.nm : SchemaEntry → Option String
  | .mk n _ => n

/-- The child entries of an entry. -/
def SchemaEntry.ch : SchemaEntry → List SchemaEntry
  | .mk _ c => c

/-- The `_SchemaFormatError` message for a missing name attribute. -/
def schemaNoNameMsg (path : String) : String :=
  "A schema entry under " ++ path ++ " does not contain a name attribute"

/-- The `_SchemaFormatError` message for a leaf/non-leaf conflict at
`path.name`. -/
def schemaConflictMsg (path nm : String) : String :=
  "Unable to merge two schemas: the entry " ++ path ++ "." ++ nm ++
  " is present in both schemas, but it has children in one and no children in the other."

/-- `a_children[name]`: the first entry with the given name. -/
def findByNm (n : String) (l : List SchemaEntry) : Option SchemaEntry :=
  l.find? (fun e => e.nm == some n)

/-- Replace the entry with the given name by `newE` (in-place mutation of
`a_child` in the Python source). -/
def replaceFirstNm (n : String) (newE : SchemaEntry) : List SchemaEntry → List SchemaEntry
  | [] => []
  | e :: es => if e.nm == some n then newE :: es else e :: replaceFirstNm n newE es

/-- `a.remove(a_child)`: drop the first entry with the given name. -/
def removeFirstNm (n : String) : List SchemaEntry → List SchemaEntry
  | [] => []
  | e :: es => if e.nm == some n then es else e :: removeFirstNm n es

/-- The loop of `_merge_schema_entries` (components.py lines 49-71).
`aNames` is the snapshot of `a`'s entry names taken before the loop
(`a_children`), `cur` the current (mutated) children of `a`, and `bs` the
still unprocessed children of `b`.  For each `b` child: require a name; when
the name is absent from the snapshot, append the child; when present, fetch
the matching entry, fail on a leaf/non-leaf disagreement, recursively merge
when both have children, and replace the entry by `b`'s when both are
leaves. -/
def mergeLoop (aNames : List (Option String)) (cur : List SchemaEntry)
    (bs : List SchemaEntry) (path : String) : Except String (List SchemaEntry) :=
  match bs with
  | [] => Except.ok cur
  | SchemaEntry.mk none _ :: _ => Except.error (schemaNoNameMsg path)
  | SchemaEntry.mk (some n) bch :: rest =>
    if (some n) ∈ aNames then
      match findByNm n cur with
      | none => Except.error (schemaNoNameMsg path)
      | some ac =>
        if bch.isEmpty ≠ ac.ch.isEmpty then
          Except.error (schemaConflictMsg path n)
        else if bch.isEmpty then
          mergeLoop aNames (removeFirstNm n cur ++ [SchemaEntry.mk (some n) bch]) rest path
        else
          match mergeLoop (ac.ch.map SchemaEntry.nm) ac.ch bch (path ++ "." ++ n) with
          | Except.error e => Except.error e
          | Except.ok newCh => mergeLoop aNames (replaceFirstNm n (SchemaEntry.mk ac.nm newCh) cur) rest path
    else
      mergeLoop aNames (cur ++ [SchemaEntry.mk (some n) bch]) rest path
termination_by sizeOf bs
decreasing_by
  all_goals simp_wf
  all_goals simp_arith

/-- `_merge_schema_entries(a, b, path)`: run the loop with the snapshot of
`a`'s names; on success the result is the final list of `a`'s entries. -/
def mergeEntries (a b : List SchemaEntry) (path : String) : Except String (List SchemaEntry) :=
  mergeLoop (a.map SchemaEntry.nm) a b path

/-- Well-formedness of a list of schema entries, as assumed by the docstring
of `_merge_schema_entries`: every entry carries a name attribute, sibling
names are unique, and the same holds recursively for children. -/
def wfSchemaList : List SchemaEntry → Bool
  | [] => true
  | SchemaEntry.mk n c :: es =>
    n.isSome && !((es.map SchemaEntry.nm).contains n) && wfSchemaList c && wfSchemaList es

/-- A structural conflict between two schema entry lists, together with the
`_SchemaFormatError` message it gives rise to: either two same-named entries
at this level of which exactly one has children, or (recursively) a conflict
between the children of two same-named entries. -/
inductive ConflictErr : List SchemaEntry → List SchemaEntry → String → String → Prop where
  | here : ∀ (a b : List SchemaEntry) (path n : String) (ac bc : SchemaEntry),
      ac ∈ a → bc ∈ b → ac.nm = some n → bc.nm = some n →
      ¬(ac.ch.isEmpty = bc.ch.isEmpty) →
      ConflictErr a b path (schemaConflictMsg path n)
  | deeper : ∀ (a b : List SchemaEntry) (path m e : String) (ac bc : SchemaEntry),
      ac ∈ a → bc ∈ b → ac.nm = some m → bc.nm = some m →
      ConflictErr ac.ch bc.ch (path ++ "." ++ m) e →
      ConflictErr a b path e

/-! ## `RtosModule._render`, header file (components.py lines 414-422) -/

/-- Python `str.upper()` (ASCII model). -/
def pyUpper (s : String) : String := String.mk (s.data.map Char.toUpper)

/-- Python `str.replace('-', '_')`. -/
def dashToUnderscore (s : String) : String :=
  String.mk (s.data.map (fun c => if c = '-' then '_' else c))

/-- `RtosModule._module_name` (components.py lines 376-378). -/
def moduleName (skeletonName : String) : String := "rtos-" ++ skeletonName

/-- `mod_name` of `_render` (components.py line 415): the module name
upper-cased with every dash replaced by an underscore. -/
def headerGuardName (skeletonName : String) : String :=
  dashToUnderscore (pyUpper (moduleName skeletonName))

/-- The fixed ordered header section names (components.py lines 401-403). -/
def headerSections : List String :=
  ["public_headers", "public_type_definitions", "public_object_like_macros",
   "public_function_like_macros", "public_extern_definitions",
   "public_function_definitions"]

/-- Concatenation of a list of strings. -/
def strConcat : List String → String
  | [] => ""
  | s :: rest => s ++ strConcat rest

/-- The header file text written by `_render` (components.py lines 414-422):
the two include-guard lines, then every block of every public section (each
followed by a newline), then the closing `#endif` line.  Fails with the
dictionary `KeyError` when a public section name is absent from the
sections mapping. -/
def renderHeader (skeletonName : String) (sections : List (String × List String)) :
    Except String String :=
  match headerSections.mapM (fun ss => alookup ss sections) with
  | none => Except.error "KeyError"
  | some blockLists =>
    let mod := headerGuardName skeletonName
    Except.ok ("#ifndef " ++ mod ++ "_H\n" ++ "#define " ++ mod ++ "_H\n" ++
      strConcat ((blockLists.flatten).map (fun data => data ++ "\n")) ++
      "\n#endif /* " ++ mod ++ "_H */")

/-! # Theorems

## Basic properties of the expansion loop -/

theorem expandF_stop (fuel : Nat) (r pending : List TD) (i : Nat) (h : ¬ i < r.length) :
    expandF fuel r pending i = r := by
  cases fuel with
  | zero => rfl
  | succ fuel => rw [expandF, dif_neg h]

theorem expandF_succ_step (fuel : Nat) (r pending : List TD) (i : Nat) (h : i < r.length) :
    expandF (Nat.succ fuel) r pending i =
      expandF fuel
        (r ++ pending.filter (fun td => td.old == (r.get ⟨i, h⟩).new))
        (pending.filter (fun td => !(td.old == (r.get ⟨i, h⟩).new)))
        (i + 1) := by
  rw [expandF, dif_pos h]

theorem expandF_nil_pending (fuel : Nat) (r : List TD) (i : Nat) :
    expandF fuel r [] i = r := by
  induction fuel generalizing r i with
  | zero => rfl
  | succ fuel ih =>
    by_cases h : i < r.length
    · rw [expandF_succ_step fuel r [] i h]
      simp only [List.filter_nil, List.append_nil]
      exact ih r (i + 1)
    · exact expandF_stop _ r [] i h

theorem expandF_append_of (fuel : Nat) (r pending : List TD) (i : Nat) :
    ∃ t, expandF fuel r pending i = r ++ t := by
  induction fuel generalizing r pending i with
  | zero => exact ⟨[], (List.append_nil r).symm⟩
  | succ fuel ih =>
    by_cases h : i < r.length
    · rw [expandF_succ_step fuel r pending i h]
      obtain ⟨t, ht⟩ := ih (r ++ pending.filter (fun td => td.old == (r.get ⟨i, h⟩).new))
        (pending.filter (fun td => !(td.old == (r.get ⟨i, h⟩).new))) (i + 1)
      exact ⟨_, by rw [ht, List.append_assoc]⟩
    · rw [expandF_stop _ r pending i h]
      exact ⟨[], (List.append_nil r).symm⟩

theorem mem_r_expandF (fuel : Nat) (r pending : List TD) (i : Nat) {x : TD} (hx : x ∈ r) :
    x ∈ expandF fuel r pending i := by
  obtain ⟨t, ht⟩ := expandF_append_of fuel r pending i
  rw [ht]
  exact List.mem_append_left t hx

theorem expandF_subperm (fuel : Nat) (r pending : List TD) (i : Nat) :
    List.Subperm (expandF fuel r pending i) (r ++ pending) := by
  induction fuel generalizing r pending i with
  | zero => exact (List.sublist_append_left r pending).subperm
  | succ fuel ih =>
    by_cases h : i < r.length
    · rw [expandF_succ_step fuel r pending i h]
      refine (ih _ _ (i + 1)).trans (List.Perm.subperm ?_)
      rw [List.append_assoc]
      exact List.Perm.append_left r (List.filter_append_perm _ pending)
    · rw [expandF_stop _ r pending i h]
      exact (List.sublist_append_left r pending).subperm

theorem mem_of_expandF (fuel : Nat) (r pending : List TD) (i : Nat) {x : TD}
    (hx : x ∈ expandF fuel r pending i) : x ∈ r ++ pending :=
  (expandF_subperm fuel r pending i).subset hx

theorem expandF_drop_mem (fuel : Nat) (r pending : List TD) (i : Nat) {x : TD}
    (hx : x ∈ (expandF fuel r pending i).drop r.length) : x ∈ pending := by
  induction fuel generalizing r pending i with
  | zero =>
    rw [show expandF 0 r pending i = r from rfl, List.drop_length] at hx
    exact absurd hx (List.not_mem_nil x)
  | succ fuel ih =>
    by_cases h : i < r.length
    · rw [expandF_succ_step fuel r pending i h] at hx
      set moved := pending.filter (fun td => td.old == (r.get ⟨i, h⟩).new) with hm
      set kept := pending.filter (fun td => !(td.old == (r.get ⟨i, h⟩).new)) with hk
      obtain ⟨t, ht⟩ := expandF_append_of fuel (r ++ moved) kept (i + 1)
      rw [ht, List.append_assoc, List.drop_left] at hx
      rcases List.mem_append.1 hx with hx | hx
      · exact (List.mem_filter.1 hx).1
      · have : x ∈ (expandF fuel (r ++ moved) kept (i + 1)).drop (r ++ moved).length := by
          rw [ht, List.drop_left]
          exact hx
        exact (List.mem_filter.1 (ih _ _ _ this)).1
    · rw [expandF_stop _ r pending i h, List.drop_length] at hx
      exact absurd hx (List.not_mem_nil x)

theorem expandF_drop_old (fuel : Nat) (r pending : List TD) (i : Nat) {x : TD}
    (hx : x ∈ (expandF fuel r pending i).drop r.length) :
    x.old ∈ (expandF fuel r pending i).map TD.new := by
  induction fuel generalizing r pending i with
  | zero =>
    rw [show expandF 0 r pending i = r from rfl, List.drop_length] at hx
    exact absurd hx (List.not_mem_nil x)
  | succ fuel ih =>
    by_cases h : i < r.length
    · rw [expandF_succ_step fuel r pending i h] at hx ⊢
      set moved := pending.filter (fun td => td.old == (r.get ⟨i, h⟩).new) with hm
      set kept := pending.filter (fun td => !(td.old == (r.get ⟨i, h⟩).new)) with hk
      obtain ⟨t, ht⟩ := expandF_append_of fuel (r ++ moved) kept (i + 1)
      rw [ht, List.append_assoc, List.drop_left] at hx
      rcases List.mem_append.1 hx with hx | hx
      · have hxc : x.old = (r.get ⟨i, h⟩).new := by
          have := (List.mem_filter.1 hx).2
          exact eq_of_beq this
        rw [hxc]
        refine List.mem_map.2 ⟨r.get ⟨i, h⟩, ?_, rfl⟩
        rw [ht]
        exact List.mem_append_left _ (List.mem_append_left _ (r.get_mem _ _))
      · apply ih
        rw [ht, List.drop_left]
        exact hx
    · rw [expandF_stop _ r pending i h, List.drop_length] at hx
      exact absurd hx (List.not_mem_nil x)

theorem filter_length_split (p : TD → Bool) (l : List TD) :
    (l.filter p).length + (l.filter (fun x => !(p x))).length = l.length := by
  have := (List.filter_append_perm p l).length_eq
  simpa [List.length_append] using this

theorem expandF_fuel_eq (fuel : Nat) : ∀ (fuel' : Nat) (r pending : List TD) (i : Nat),
    pending.length + r.length ≤ fuel + i → pending.length + r.length ≤ fuel' + i →
    expandF fuel r pending i = expandF fuel' r pending i := by
  induction fuel with
  | zero =>
    intro fuel' r pending i h1 _
    have hstop : ¬ i < r.length := by omega
    rw [expandF_stop 0 r pending i hstop, expandF_stop fuel' r pending i hstop]
  | succ fuel ih =>
    intro fuel' r pending i h1 h2
    by_cases h : i < r.length
    · have hf' : ∃ f2, fuel' = Nat.succ f2 := by
        cases fuel' with
        | zero => omega
        | succ f2 => exact ⟨f2, rfl⟩
      obtain ⟨f2, rfl⟩ := hf'
      rw [expandF_succ_step fuel r pending i h, expandF_succ_step f2 r pending i h]
      have hsplit := filter_length_split (fun td => td.old == (r.get ⟨i, h⟩).new) pending
      apply ih
      · simp only [List.length_append]
        omega
      · simp only [List.length_append]
        omega
    · rw [expandF_stop _ r pending i h, expandF_stop fuel' r pending i h]

/-- Re-running the expansion loop from state `(r, ·, i)`, with the pending
list replaced by the pairs the original run appends beyond `r`, reproduces
the original run's result, provided no pending pair's old type matches an
already processed check type. -/
theorem expandF_idem (fuel : Nat) : ∀ (r pending : List TD) (i : Nat),
    pending.length + r.length ≤ fuel + i →
    (∀ e ∈ pending, ∀ j, j < i → ∀ (hj : j < r.length), e.old ≠ (r.get ⟨j, hj⟩).new) →
    expandF fuel r ((expandF fuel r pending i).drop r.length) i = expandF fuel r pending i := by
  induction fuel with
  | zero =>
    intro r pending i h1 _
    have hstop : ¬ i < r.length := by omega
    rw [expandF_stop 0 r pending i hstop, List.drop_length]
    rw [expandF_stop 0 r [] i hstop]
  | succ fuel ih =>
    intro r pending i h1 hfresh
    by_cases h : i < r.length
    · set check := (r.get ⟨i, h⟩).new with hcheck
      set moved := pending.filter (fun td => td.old == check) with hmv
      set kept := pending.filter (fun td => !(td.old == check)) with hkp
      have hstep : expandF (Nat.succ fuel) r pending i = expandF fuel (r ++ moved) kept (i + 1) :=
        expandF_succ_step fuel r pending i h
      obtain ⟨t, ht⟩ := expandF_append_of fuel (r ++ moved) kept (i + 1)
      have hdrop : (expandF (Nat.succ fuel) r pending i).drop r.length = moved ++ t := by
        rw [hstep, ht, List.append_assoc, List.drop_left]
      have htmem : ∀ x ∈ t, x ∈ kept := by
        intro x hxt
        apply expandF_drop_mem fuel (r ++ moved) kept (i + 1)
        rw [ht, List.drop_left]
        exact hxt
      have hmoved_all : ∀ x ∈ moved, (x.old == check) = true := by
        intro x hx
        exact (List.mem_filter.1 hx).2
      have ht_none : ∀ x ∈ t, (x.old == check) = false := by
        intro x hxt
        have := (List.mem_filter.1 (htmem x hxt)).2
        simpa using this
      rw [hdrop, hstep]
      rw [expandF_succ_step fuel r (moved ++ t) i h]
      have hfilter1 : (moved ++ t).filter (fun td => td.old == check) = moved := by
        rw [List.filter_append]
        rw [List.filter_eq_self.2 hmoved_all]
        rw [List.filter_eq_nil.2 (by intro x hx; simp [ht_none x hx])]
        exact List.append_nil moved
      have hfilter2 : (moved ++ t).filter (fun td => !(td.old == check)) = t := by
        rw [List.filter_append]
        rw [List.filter_eq_nil.2 (by intro x hx; simp [hmoved_all x hx])]
        rw [List.filter_eq_self.2 (by intro x hx; simp [ht_none x hx])]
        rfl
      rw [hfilter1, hfilter2]
      have hteq : t = (expandF fuel (r ++ moved) kept (i + 1)).drop (r ++ moved).length := by
        rw [ht, List.drop_left]
      rw [hteq]
      apply ih (r ++ moved) kept (i + 1)
      · have hsplit := filter_length_split (fun td => td.old == check) pending
        simp only [List.length_append]
        have : moved.length + kept.length = pending.length := hsplit
        omega
      · intro e he j hji hjr
        by_cases hjlt : j < r.length
        · have hget : (r ++ moved).get ⟨j, hjr⟩ = r.get ⟨j, hjlt⟩ := by
            exact List.get_append j hjlt
          rw [hget]
          rcases Nat.lt_or_ge j i with hlt | hge
          · exact hfresh e (List.mem_of_mem_filter he) j hlt hjlt
          · have hji2 : j = i := by omega
            subst hji2
            have hne : ¬ (e.old = check) := by
              have hb := (List.mem_filter.1 he).2
              simpa using hb
            intro hcon
            apply hne
            rw [hcon]
        · exfalso
          omega
    · rw [expandF_stop _ r pending i h, List.drop_length, expandF_nil_pending]

/-- Every entry of the expansion loop's result either has its old type
introduced by an earlier entry or has an old type outside `N`. -/
theorem expandF_take_inv (N : List String) (fuel : Nat) :
    ∀ (r pending : List TD) (i : Nat),
    (∀ (j : Nat) (hj : j < r.length),
      (r.get ⟨j, hj⟩).old ∈ (r.take j).map TD.new ∨ (r.get ⟨j, hj⟩).old ∉ N) →
    ∀ (j : Nat) (hj : j < (expandF fuel r pending i).length),
      ((expandF fuel r pending i).get ⟨j, hj⟩).old ∈
        ((expandF fuel r pending i).take j).map TD.new ∨
      ((expandF fuel r pending i).get ⟨j, hj⟩).old ∉ N := by
  induction fuel with
  | zero => intro r pending i hr; exact hr
  | succ fuel ih =>
    intro r pending i hr
    by_cases h : i < r.length
    · rw [expandF_succ_step fuel r pending i h]
      set check := (r.get ⟨i, h⟩).new with hcheck
      set moved := pending.filter (fun td => td.old == check) with hmv
      apply ih
      intro j hj
      by_cases hjlt : j < r.length
      · have hget : (r ++ moved).get ⟨j, hj⟩ = r.get ⟨j, hjlt⟩ := List.get_append j hjlt
        have htake : (r ++ moved).take j = r.take j ++ moved.take (j - r.length) := by
          exact List.take_append_eq_append_take
        have hz : j - r.length = 0 := by omega
        rw [hget, htake, hz]
        simp only [List.take_zero, List.append_nil]
        exact hr j hjlt
      · left
        have hjge : r.length ≤ j := by omega
        have hget : (r ++ moved).get ⟨j, hj⟩ = moved.get ⟨j - r.length, by
            simp only [List.length_append] at hj; omega⟩ := by
          simp only [List.get_eq_getElem]
          exact List.getElem_append_right hjge
        have hmem : (r ++ moved).get ⟨j, hj⟩ ∈ moved := by
          rw [hget]; exact moved.get_mem _ _
        have hold : ((r ++ moved).get ⟨j, hj⟩).old = check :=
          eq_of_beq (List.mem_filter.1 hmem).2
        rw [hold, hcheck]
        have htake : (r ++ moved).take j = r ++ moved.take (j - r.length) := by
          rw [List.take_append_eq_append_take, List.take_of_length_le hjge]
        rw [htake]
        refine List.mem_map.2 ⟨r.get ⟨i, h⟩, ?_, rfl⟩
        exact List.mem_append_left _ (r.get_mem _ _)
    · rw [expandF_stop _ r pending i h]
      exact hr

/-- Every pending pair whose old type is eventually introduced at or after
the current loop index is eventually placed. -/
theorem expandF_complete (fuel : Nat) : ∀ (r pending : List TD) (i : Nat) (p : TD),
    pending.length + r.length ≤ fuel + i → p ∈ pending →
    p.old ∈ ((expandF fuel r pending i).drop i).map TD.new →
    p ∈ expandF fuel r pending i := by
  induction fuel with
  | zero =>
    intro r pending i p h1 hp hmem
    have hpl : 1 ≤ pending.length := List.length_pos.2 (by rintro rfl; exact List.not_mem_nil p hp)
    have : r.length ≤ i := by omega
    rw [show expandF 0 r pending i = r from rfl, List.drop_eq_nil_of_le this] at hmem
    simp at hmem
  | succ fuel ih =>
    intro r pending i p h1 hp hmem
    by_cases h : i < r.length
    · rw [expandF_succ_step fuel r pending i h] at hmem ⊢
      by_cases hpc : p.old = (r.get ⟨i, h⟩).new
      · apply mem_r_expandF
        refine List.mem_append_right r (List.mem_filter.2 ⟨hp, ?_⟩)
        simpa using hpc
      · have hpk : p ∈ pending.filter (fun td => !(td.old == (r.get ⟨i, h⟩).new)) :=
          List.mem_filter.2 ⟨hp, by simpa using hpc⟩
        obtain ⟨t, ht⟩ := expandF_append_of fuel
          (r ++ pending.filter (fun td => td.old == (r.get ⟨i, h⟩).new))
          (pending.filter (fun td => !(td.old == (r.get ⟨i, h⟩).new))) (i + 1)
        rw [List.append_assoc] at ht
        have hlen : i < (r ++ (pending.filter (fun td => td.old == (r.get ⟨i, h⟩).new) ++ t)).length := by
          simp only [List.length_append]
          omega
        have hdropi : (r ++ (pending.filter (fun td => td.old == (r.get ⟨i, h⟩).new) ++ t)).drop i =
            r.get ⟨i, h⟩ ::
            (r ++ (pending.filter (fun td => td.old == (r.get ⟨i, h⟩).new) ++ t)).drop (i + 1) := by
          rw [List.drop_eq_getElem_cons hlen]
          congr 1
          simp only [List.get_eq_getElem]
          exact List.getElem_append_left h
        rw [ht, hdropi] at hmem
        simp only [List.map_cons, List.mem_cons] at hmem
        rcases hmem with hmem | hmem
        · exact absurd hmem hpc
        · apply ih _ _ (i + 1) p
          · have hsplit := filter_length_split (fun td => td.old == (r.get ⟨i, h⟩).new) pending
            simp only [List.length_append]
            omega
          · exact hpk
          · rw [ht]
            exact hmem
    · have hpl : 1 ≤ pending.length := List.length_pos.2 (by rintro rfl; exact List.not_mem_nil p hp)
      rw [expandF_stop _ r pending i h, List.drop_eq_nil_of_le (by omega)] at hmem
      simp at hmem

/-- Everything the loop places is reachable. -/
theorem expandF_sound (l : List TD) (fuel : Nat) : ∀ (r pending : List TD) (i : Nat),
    (∀ p ∈ r, Reachable l p) → (∀ p ∈ pending, p ∈ l) →
    ∀ p ∈ expandF fuel r pending i, Reachable l p := by
  induction fuel with
  | zero => intro r pending i hr _ p hp; exact hr p hp
  | succ fuel ih =>
    intro r pending i hr hpend p hp
    by_cases h : i < r.length
    · rw [expandF_succ_step fuel r pending i h] at hp
      refine ih _ _ (i + 1) ?_ ?_ p hp
      · intro q hq
        rcases List.mem_append.1 hq with hq | hq
        · exact hr q hq
        · refine Reachable.step (hpend q (List.mem_of_mem_filter hq)) (hr _ (r.get_mem _ _))
            (eq_of_beq (List.mem_filter.1 hq).2)
      · intro q hq
        exact hpend q (List.mem_of_mem_filter hq)
    · rw [expandF_stop _ r pending i h] at hp
      exact hr p hp

/-! ## Properties of `sortPairs` -/

theorem mem_basePairs {l : List TD} {x : TD} :
    x ∈ basePairs l ↔ x ∈ l ∧ x.old ∉ l.map TD.new := by
  simp [basePairs, List.mem_filter]

theorem mem_pendPairs {l : List TD} {x : TD} :
    x ∈ pendPairs l ↔ x ∈ l ∧ x.old ∈ l.map TD.new := by
  simp [pendPairs, List.mem_filter]

theorem base_pend_perm (l : List TD) : List.Perm (basePairs l ++ pendPairs l) l := by
  have h := List.filter_append_perm (fun td => !((l.map TD.new).contains td.old)) l
  have hc : List.filter (fun x => !(!((l.map TD.new).contains x.old))) l = pendPairs l :=
    List.filter_congr (by intro x _; simp [pendPairs])
  rw [basePairs, ← hc]
  exact h

theorem base_pend_length (l : List TD) :
    (basePairs l).length + (pendPairs l).length = l.length := by
  have h := (base_pend_perm l).length_eq
  simpa [List.length_append] using h

theorem sortPairs_subperm (l : List TD) : List.Subperm (sortPairs l) l := by
  rw [sortPairs]
  exact (expandF_subperm _ (basePairs l) (pendPairs l) 0).trans (base_pend_perm l).subperm

theorem mem_sortPairs {l : List TD} {p : TD} (h : p ∈ sortPairs l) : p ∈ l :=
  (sortPairs_subperm l).subset h

theorem sortPairs_new_nodup {l : List TD} (h : (l.map TD.new).Nodup) :
    ((sortPairs l).map TD.new).Nodup := by
  obtain ⟨w, hwp, hws⟩ := sortPairs_subperm l
  have h1 : (w.map TD.new).Nodup := List.Nodup.sublist (List.Sublist.map TD.new hws) h
  exact (List.Perm.nodup_iff (List.Perm.map TD.new hwp)).1 h1

/-- `sortPairs` is idempotent on parsed pair lists. -/
theorem sortPairs_idem (l : List TD) : sortPairs (sortPairs l) = sortPairs l := by
  have hF : sortPairs l =
      expandF ((basePairs l).length + (pendPairs l).length) (basePairs l) (pendPairs l) 0 := rfl
  obtain ⟨t, ht⟩ := expandF_append_of ((basePairs l).length + (pendPairs l).length)
    (basePairs l) (pendPairs l) 0
  have hts : sortPairs l = basePairs l ++ t := by rw [hF, ht]
  have hsubN : ∀ x, x ∈ (sortPairs l).map TD.new → x ∈ l.map TD.new := by
    intro x hx
    obtain ⟨q, hq, hqx⟩ := List.mem_map.1 hx
    exact List.mem_map.2 ⟨q, mem_sortPairs hq, hqx⟩
  have hbase_old : ∀ e ∈ basePairs l, e.old ∉ l.map TD.new := by
    intro e he
    exact (mem_basePairs.1 he).2
  have hsuf : ∀ e ∈ t, e.old ∈ (sortPairs l).map TD.new := by
    intro e he
    have hdrop : (sortPairs l).drop (basePairs l).length = t := by
      rw [hts, List.drop_left]
    have : e ∈ (sortPairs l).drop (basePairs l).length := by rw [hdrop]; exact he
    rw [hF] at this ⊢
    exact expandF_drop_old _ _ _ _ this
  have hb2 : basePairs (sortPairs l) = basePairs l := by
    conv_lhs => rw [basePairs, hts]
    rw [List.filter_append]
    have h1 : (basePairs l).filter
        (fun td => !(((sortPairs l).map TD.new).contains td.old)) = basePairs l := by
      apply List.filter_eq_self.2
      intro e he
      have : e.old ∉ (sortPairs l).map TD.new := fun hc => hbase_old e he (hsubN _ hc)
      simpa using this
    have h2 : t.filter (fun td => !(((sortPairs l).map TD.new).contains td.old)) = [] := by
      apply List.filter_eq_nil.2
      intro e he
      have := hsuf e he
      simpa using this
    rw [← hts, h1, h2, List.append_nil]
  have hp2 : pendPairs (sortPairs l) = t := by
    conv_lhs => rw [pendPairs, hts]
    rw [List.filter_append]
    have h1 : (basePairs l).filter
        (fun td => ((sortPairs l).map TD.new).contains td.old) = [] := by
      apply List.filter_eq_nil.2
      intro e he
      have : e.old ∉ (sortPairs l).map TD.new := fun hc => hbase_old e he (hsubN _ hc)
      simpa using this
    have h2 : t.filter (fun td => ((sortPairs l).map TD.new).contains td.old) = t := by
      apply List.filter_eq_self.2
      intro e he
      have := hsuf e he
      simpa using this
    rw [← hts, h1, h2, List.nil_append]
  have htlen : t.length ≤ (pendPairs l).length := by
    have hlen1 : (sortPairs l).length ≤ l.length := (sortPairs_subperm l).length_le
    have hlen2 : (sortPairs l).length = (basePairs l).length + t.length := by
      rw [hts, List.length_append]
    have := base_pend_length l
    omega
  calc sortPairs (sortPairs l)
      = expandF ((basePairs l).length + t.length) (basePairs l) t 0 := by
        rw [sortPairs, hb2, hp2]
    _ = expandF ((basePairs l).length + (pendPairs l).length) (basePairs l) t 0 := by
        apply expandF_fuel_eq <;> omega
    _ = sortPairs l := by
        have hidem := expandF_idem ((basePairs l).length + (pendPairs l).length)
          (basePairs l) (pendPairs l) 0 (by omega)
          (by intro e _ j hj _; omega)
        have hdrop : (expandF ((basePairs l).length + (pendPairs l).length)
            (basePairs l) (pendPairs l) 0).drop (basePairs l).length = t := by
          rw [← hF, hts, List.drop_left]
        rw [hdrop] at hidem
        rw [hidem, ← hF]

/-! ## Round-trip properties of the typedef line grammar -/

theorem pySplitCh_ws_cons {c : Char} (cs : List Char) (h : pyWs c = true) :
    pySplitCh (c :: cs) = pySplitCh cs := by
  cases cs with
  | nil => simp [pySplitCh, h]
  | cons d cs => simp [pySplitCh, h]

theorem pySplitCh_ne_nil {c : Char} (cs : List Char) (h : pyWs c = false) :
    pySplitCh (c :: cs) ≠ [] := by
  cases cs with
  | nil => simp [pySplitCh, h]
  | cons d cs =>
    rw [pySplitCh, if_neg (by simp [h])]
    rcases hr : pySplitCh (d :: cs) with _ | ⟨t, ts⟩ <;> rcases hd : pyWs d <;> simp

theorem pySplitCh_app : ∀ (xs ys : List Char),
    pySplitCh (xs ++ ' ' :: ys) = pySplitCh xs ++ pySplitCh ys
  | [], ys => by
    rw [List.nil_append, pySplitCh_ws_cons ys (by decide)]
    simp [pySplitCh]
  | [x], ys => by
    by_cases hx : pyWs x = true
    · rw [List.cons_append, List.nil_append, pySplitCh_ws_cons (' ' :: ys) hx,
        pySplitCh_ws_cons ys (by decide)]
      simp [pySplitCh, hx]
    · have hx' : pyWs x = false := by simpa using hx
      rw [List.cons_append, List.nil_append]
      rw [show pySplitCh (x :: ' ' :: ys) =
        [x] :: pySplitCh (' ' :: ys) from by
          rw [pySplitCh, if_neg (by simp [hx'])]
          simp [show pyWs ' ' = true from by decide]]
      rw [pySplitCh_ws_cons ys (by decide)]
      simp [pySplitCh, hx']
  | x :: x' :: xs, ys => by
    have ih := pySplitCh_app (x' :: xs) ys
    by_cases hx : pyWs x = true
    · rw [List.cons_append, pySplitCh_ws_cons _ hx, pySplitCh_ws_cons _ hx]
      exact ih
    · have hx' : pyWs x = false := by simpa using hx
      by_cases hd : pyWs x' = true
      · rw [List.cons_append]
        rw [show pySplitCh (x :: (x' :: xs ++ ' ' :: ys)) =
            [x] :: pySplitCh (x' :: xs ++ ' ' :: ys) from by
          rw [List.cons_append, pySplitCh, if_neg (by simp [hx'])]
          simp [hd]]
        rw [show pySplitCh (x :: x' :: xs) = [x] :: pySplitCh (x' :: xs) from by
          rw [pySplitCh, if_neg (by simp [hx'])]
          simp [hd]]
        rw [ih]
        rfl
      · have hd' : pyWs x' = false := by simpa using hd
        rcases hsp : pySplitCh (x' :: xs) with _ | ⟨t, ts⟩
        · exact absurd hsp (pySplitCh_ne_nil xs hd')
        · have hsp2 : pySplitCh (x' :: xs ++ ' ' :: ys) = t :: (ts ++ pySplitCh ys) := by
            rw [← List.cons_append, ih, hsp]
          rw [List.cons_append]
          rw [show pySplitCh (x :: (x' :: xs ++ ' ' :: ys)) =
              (x :: t) :: (ts ++ pySplitCh ys) from by
            rw [List.cons_append, pySplitCh, if_neg (by simp [hx'])]
            rw [← List.cons_append, hsp2]
            simp [hd']]
          rw [show pySplitCh (x :: x' :: xs) = (x :: t) :: ts from by
            rw [pySplitCh, if_neg (by simp [hx'])]
            rw [hsp]
            simp [hd']]
          simp

theorem pySplitCh_single : ∀ (t : List Char), t ≠ [] → (∀ c ∈ t, pyWs c = false) →
    pySplitCh t = [t]
  | [], h, _ => absurd rfl h
  | [x], _, h2 => by simp [pySplitCh, h2 x (List.mem_singleton.2 rfl)]
  | x :: x' :: xs, _, h2 => by
    have hx : pyWs x = false := h2 x (List.mem_cons_self _ _)
    have hd : pyWs x' = false := h2 x' (List.mem_cons.2 (Or.inr (List.mem_cons_self _ _)))
    have ih := pySplitCh_single (x' :: xs) (by simp)
      (fun c hc => h2 c (List.mem_cons.2 (Or.inr hc)))
    rw [pySplitCh, if_neg (by simp [hx]), ih]
    simp [hd]

theorem pySplitCh_tokens : ∀ (s : List Char), ∀ t ∈ pySplitCh s,
    t ≠ [] ∧ ∀ c ∈ t, pyWs c = false
  | [], t, ht => by simp [pySplitCh] at ht
  | [x], t, ht => by
    by_cases hx : pyWs x = true
    · simp [pySplitCh, hx] at ht
    · have hx' : pyWs x = false := by simpa using hx
      simp [pySplitCh, hx'] at ht
      subst ht
      exact ⟨by simp, by intro c hc; rw [List.mem_singleton.1 hc]; exact hx'⟩
  | x :: x' :: xs, t, ht => by
    by_cases hx : pyWs x = true
    · rw [pySplitCh_ws_cons _ hx] at ht
      exact pySplitCh_tokens (x' :: xs) t ht
    · have hx' : pyWs x = false := by simpa using hx
      have ihall := pySplitCh_tokens (x' :: xs)
      by_cases hd : pyWs x' = true
      · rw [show pySplitCh (x :: x' :: xs) = [x] :: pySplitCh (x' :: xs) from by
          rw [pySplitCh, if_neg (by simp [hx'])]
          simp [hd]] at ht
        rcases List.mem_cons.1 ht with ht | ht
        · subst ht
          exact ⟨by simp, by intro c hc; rw [List.mem_singleton.1 hc]; exact hx'⟩
        · exact ihall t ht
      · have hd' : pyWs x' = false := by simpa using hd
        rcases hsp : pySplitCh (x' :: xs) with _ | ⟨t0, ts⟩
        · exact absurd hsp (pySplitCh_ne_nil xs hd')
        · rw [show pySplitCh (x :: x' :: xs) = (x :: t0) :: ts from by
            rw [pySplitCh, if_neg (by simp [hx']), hsp]
            simp [hd']] at ht
          rcases List.mem_cons.1 ht with ht | ht
          · subst ht
            have h0 := ihall t0 (by rw [hsp]; exact List.mem_cons_self _ _)
            refine ⟨by simp, ?_⟩
            intro c hc
            rcases List.mem_cons.1 hc with hc | hc
            · rw [hc]; exact hx'
            · exact h0.2 c hc
          · exact ihall t (by rw [hsp]; exact List.mem_cons.2 (Or.inr ht))

theorem strEta (s : String) : String.mk s.data = s := by
  cases s
  rfl

theorem splitNlCh_ne_nil : ∀ (s : List Char), splitNlCh s ≠ []
  | [] => by simp [splitNlCh]
  | c :: cs => by
    rw [splitNlCh]
    by_cases hc : c = '\n'
    · simp [hc]
    · rcases hr : splitNlCh cs with _ | ⟨p, ps⟩ <;> simp [hc]

theorem splitNlCh_single : ∀ (xs : List Char), (∀ c ∈ xs, c ≠ '\n') → splitNlCh xs = [xs]
  | [], _ => rfl
  | c :: cs, h => by
    have hc : ¬ c = '\n' := h c (List.mem_cons_self _ _)
    have ih := splitNlCh_single cs (fun d hd => h d (List.mem_cons.2 (Or.inr hd)))
    rw [splitNlCh, if_neg hc, ih]

theorem splitNlCh_app : ∀ (xs ys : List Char), (∀ c ∈ xs, c ≠ '\n') →
    splitNlCh (xs ++ '\n' :: ys) = xs :: splitNlCh ys
  | [], ys, _ => by
    rw [List.nil_append, splitNlCh, if_pos rfl]
  | c :: cs, ys, h => by
    have hc : ¬ c = '\n' := h c (List.mem_cons_self _ _)
    have ih := splitNlCh_app cs ys (fun d hd => h d (List.mem_cons.2 (Or.inr hd)))
    rw [List.cons_append, splitNlCh, if_neg hc, ih]

theorem joinSep_cons2 (sep s t : String) (rest : List String) :
    joinSep sep (s :: t :: rest) = s ++ sep ++ joinSep sep (t :: rest) := rfl

theorem mem_joinSep_data (sep : String) : ∀ (ts : List String) (c : Char),
    c ∈ (joinSep sep ts).data → (∃ t ∈ ts, c ∈ t.data) ∨ c ∈ sep.data
  | [], c, hc => by simp [joinSep] at hc
  | [t], c, hc => Or.inl ⟨t, List.mem_singleton.2 rfl, by simpa [joinSep] using hc⟩
  | t :: t' :: rest, c, hc => by
    rw [joinSep_cons2] at hc
    simp only [String.data_append, List.mem_append] at hc
    rcases hc with (hc | hc) | hc
    · exact Or.inl ⟨t, List.mem_cons_self _ _, hc⟩
    · exact Or.inr hc
    · rcases mem_joinSep_data sep (t' :: rest) c hc with ⟨u, hu, hcu⟩ | hc
      · exact Or.inl ⟨u, List.mem_cons.2 (Or.inr hu), hcu⟩
      · exact Or.inr hc

theorem pySplitCh_joinSep : ∀ (ts : List String),
    (∀ t ∈ ts, t.data ≠ [] ∧ ∀ c ∈ t.data, pyWs c = false) →
    pySplitCh (joinSep " " ts).data = ts.map String.data
  | [], _ => rfl
  | [t], h => by
    rw [joinSep]
    have ht := h t (List.mem_singleton.2 rfl)
    rw [pySplitCh_single t.data ht.1 ht.2]
    rfl
  | t :: t' :: rest, h => by
    have ht := h t (List.mem_cons_self _ _)
    have ih := pySplitCh_joinSep (t' :: rest) (fun u hu => h u (List.mem_cons.2 (Or.inr hu)))
    rw [joinSep_cons2]
    simp only [String.data_append]
    have hshape : t.data ++ " ".data ++ (joinSep " " (t' :: rest)).data =
        t.data ++ ' ' :: (joinSep " " (t' :: rest)).data := by
      rw [List.append_assoc]
      rfl
    rw [hshape, pySplitCh_app, pySplitCh_single t.data ht.1 ht.2, ih]
    rfl

theorem getLastD_mem : ∀ (l : List α) (d : α), l ≠ [] → l.getLastD d ∈ l
  | [], _, h => absurd rfl h
  | [x], _, _ => by simp
  | x :: y :: xs, d, _ => by
    have ih := getLastD_mem (y :: xs) d (by simp)
    rw [List.getLastD_cons]
    exact List.mem_cons.2 (Or.inr ih)

theorem getLastD_concat_eq (l : List α) (x d : α) : (l ++ [x]).getLastD d = x := by
  exact List.getLastD_concat d x l

theorem dropLast_concat_eq (l : List α) (x : α) : (l ++ [x]).dropLast = l := by
  simp

theorem nonws_ne_nl {c : Char} (h : pyWs c = false) : c ≠ '\n' := by
  intro he
  rw [he] at h
  exact absurd h (by decide)


theorem pyParseLine_ok_elim {l : String} {td : TD} (h : pyParseLine l = Except.ok td) :
    ∃ rest : List String, pySplit (strDropLast l) = "typedef" :: rest ∧
      td.new = rest.getLastD "typedef" ∧ td.old = joinSep " " rest.dropLast := by
  rw [pyParseLine] at h
  split at h
  · split at h
    · exact absurd h (by simp)
    · rename_i p0 rest heq
      split at h
      · rename_i hp0
        have h2 := Except.ok.inj h
        exact ⟨rest, by rw [heq, hp0], by rw [← h2, hp0], by rw [← h2]⟩
      · exact absurd h (by simp)
  · exact absurd h (by simp)

theorem pySplit_tok {s : String} {t : String} (ht : t ∈ pySplit s) :
    t.data ≠ [] ∧ ∀ c ∈ t.data, pyWs c = false := by
  obtain ⟨cs, hcs, rfl⟩ := List.mem_map.1 ht
  exact pySplitCh_tokens s.data cs hcs

theorem typedef_tok : ("typedef" : String).data ≠ [] ∧
    ∀ c ∈ ("typedef" : String).data, pyWs c = false := by
  constructor
  · decide
  · decide

/-- Reparsing the rendering of a typedef line: the whitespace-splitting of
`typedef {old} {new}` recovers exactly the keyword, the old-type tokens and
the new-type token. -/
theorem pySplit_render (mid : List String) (nw : String)
    (hmid : ∀ t ∈ mid, t.data ≠ [] ∧ ∀ c ∈ t.data, pyWs c = false)
    (hnw : nw.data ≠ [] ∧ ∀ c ∈ nw.data, pyWs c = false) :
    pySplit ("typedef " ++ joinSep " " mid ++ " " ++ nw) = "typedef" :: (mid ++ [nw]) := by
  have hdata : ("typedef " ++ joinSep " " mid ++ " " ++ nw).data =
      ("typedef" : String).data ++ ' ' :: ((joinSep " " mid).data ++ ' ' :: nw.data) := by
    simp [List.append_assoc]
  rw [pySplit, hdata, pySplitCh_app, pySplitCh_app,
    pySplitCh_single _ typedef_tok.1 typedef_tok.2,
    pySplitCh_single nw.data hnw.1 hnw.2, pySplitCh_joinSep mid hmid]
  simp only [List.map_append, List.map_cons, List.map_map, List.map_nil]
  rw [show (String.mk ("typedef" : String).data) = ("typedef" : String) from strEta _,
    strEta nw]
  have hmapid : List.map (String.mk ∘ String.data) mid = mid := by
    calc List.map (String.mk ∘ String.data) mid = List.map id mid :=
          List.map_congr_left (fun u _ => strEta u)
      _ = mid := List.map_id mid
  rw [hmapid]
  rfl

/-- The core line-level round trip: a successfully parsed typedef line
re-renders to a line that parses back to the same pair, and that rendered
line contains no newline character. -/
theorem pyParseLine_render {l : String} {td : TD} (h : pyParseLine l = Except.ok td) :
    pyParseLine (renderTypedef td) = Except.ok td ∧
    ∀ c ∈ (renderTypedef td).data, c ≠ '\n' := by
  obtain ⟨rest, hsp, hnew, hold⟩ := pyParseLine_ok_elim h
  have htok : ∀ t ∈ ("typedef" :: rest), t.data ≠ [] ∧ ∀ c ∈ t.data, pyWs c = false := by
    intro t hts
    apply pySplit_tok (s := strDropLast l)
    rw [hsp]
    exact hts
  have hnewtok : td.new.data ≠ [] ∧ ∀ c ∈ td.new.data, pyWs c = false := by
    rcases hrest : rest with _ | ⟨r0, rs⟩
    · rw [hnew, hrest]
      exact typedef_tok
    · rw [hnew, hrest]
      refine htok _ (List.mem_cons.2 (Or.inr ?_))
      rw [← hrest]
      exact hrest ▸ getLastD_mem (r0 :: rs) "typedef" (by simp)
  have hmidtok : ∀ t ∈ rest.dropLast, t.data ≠ [] ∧ ∀ c ∈ t.data, pyWs c = false :=
    fun t ht => htok t (List.mem_cons.2 (Or.inr ((List.dropLast_sublist rest).subset ht)))
  have hrender : renderTypedef td = ("typedef " ++ joinSep " " rest.dropLast ++ " " ++ td.new) ++ ";" := by
    rw [renderTypedef, hold]
  have hrest_eq : rest.dropLast ++ [td.new] = rest ∨ (rest = [] ∧ td.new = "typedef") := by
    rcases hrest : rest with _ | ⟨r0, rs⟩
    · right
      refine ⟨rfl, ?_⟩
      rw [hnew, hrest]
      rfl
    · left
      rw [← hrest]
      have hne : rest ≠ [] := by rw [hrest]; simp
      have h1 : rest.getLastD "typedef" = rest.getLast hne := by
        rw [List.getLastD_eq_getLast?, List.getLast?_eq_getLast rest hne]
        rfl
      rw [hnew, h1]
      exact List.dropLast_concat_getLast hne
  have hsplit2 : pySplit (strDropLast (renderTypedef td)) =
      "typedef" :: (rest.dropLast ++ [td.new]) := by
    have hdl : strDropLast (renderTypedef td) =
        "typedef " ++ joinSep " " rest.dropLast ++ " " ++ td.new := by
      rw [hrender, strDropLast]
      have : (("typedef " ++ joinSep " " rest.dropLast ++ " " ++ td.new) ++ ";").data =
          ("typedef " ++ joinSep " " rest.dropLast ++ " " ++ td.new).data ++ [';'] := by
        simp
      rw [this, dropLast_concat_eq, strEta]
    rw [hdl]
    exact pySplit_render rest.dropLast td.new hmidtok hnewtok
  have hends : endsWithChar (renderTypedef td) ';' = true := by
    rw [hrender, endsWithChar]
    have : (("typedef " ++ joinSep " " rest.dropLast ++ " " ++ td.new) ++ ";").data =
        ("typedef " ++ joinSep " " rest.dropLast ++ " " ++ td.new).data ++ [';'] := by
      simp
    rw [this, List.getLast?_concat]
    rfl
  constructor
  · rw [pyParseLine, if_pos hends, hsplit2]
    dsimp only
    rw [if_pos rfl]
    congr 1
    have e1 : (rest.dropLast ++ [td.new]).getLastD "typedef" = td.new :=
      getLastD_concat_eq _ _ _
    have e2 : (rest.dropLast ++ [td.new]).dropLast = rest.dropLast :=
      dropLast_concat_eq _ _
    rw [e1, e2, ← hold]
  · intro c hc
    rw [hrender] at hc
    simp only [String.data_append] at hc
    rcases List.mem_append.1 hc with hc | hc
    · rcases List.mem_append.1 hc with hc | hc
      · rcases List.mem_append.1 hc with hc | hc
        · rcases List.mem_append.1 hc with hc | hc
          · revert hc
            have : ∀ c ∈ ("typedef " : String).data, c ≠ '\n' := by decide
            exact this c
          · rcases mem_joinSep_data " " rest.dropLast c hc with ⟨t, ht, hct⟩ | hc
            · exact nonws_ne_nl ((hmidtok t ht).2 c hct)
            · revert hc
              have : ∀ c ∈ (" " : String).data, c ≠ '\n' := by decide
              exact this c
        · revert hc
          have : ∀ c ∈ (" " : String).data, c ≠ '\n' := by decide
          exact this c
      · exact nonws_ne_nl (hnewtok.2 c hc)
    · revert hc
      have : ∀ c ∈ (";" : String).data, c ≠ '\n' := by decide
      exact this c



theorem parseTypedefList_src : ∀ {ls : List String} {l : List TD},
    parseTypedefList ls = Except.ok l → ∀ td ∈ l, ∃ ln, pyParseLine ln = Except.ok td := by
  intro ls
  induction ls with
  | nil =>
    intro l h td htd
    rw [parseTypedefList] at h
    have h2 := Except.ok.inj h
    rw [← h2] at htd
    exact absurd htd (List.not_mem_nil td)
  | cons x ls ih =>
    intro l h td htd
    rw [parseTypedefList] at h
    by_cases hx : x = ""
    · rw [if_pos hx] at h
      exact ih h td htd
    · rw [if_neg hx] at h
      split at h
      · exact absurd h (by simp)
      · rename_i td0 hpl
        split at h
        · exact absurd h (by simp)
        · rename_i rest hrest
          have h2 := Except.ok.inj h
          rw [← h2] at htd
          rcases List.mem_cons.1 htd with htd | htd
          · exact ⟨x, by rw [hpl, htd]⟩
          · exact ih hrest td htd

theorem renderTypedef_ne_empty (td : TD) : renderTypedef td ≠ "" := by
  intro he
  have h2 : (renderTypedef td).data = [] := by rw [he]
  rw [renderTypedef] at h2
  simp at h2

theorem parseTypedefList_map_render : ∀ {r : List TD},
    (∀ td ∈ r, pyParseLine (renderTypedef td) = Except.ok td) →
    parseTypedefList (r.map renderTypedef) = Except.ok r := by
  intro r
  induction r with
  | nil => intro _; rfl
  | cons td rest ih =>
    intro h
    rw [List.map_cons, parseTypedefList, if_neg (renderTypedef_ne_empty td),
      h td (List.mem_cons_self _ _), ih (fun u hu => h u (List.mem_cons.2 (Or.inr hu)))]

theorem pySplitNl_joinSep : ∀ (ls : List String), ls ≠ [] →
    (∀ p ∈ ls, ∀ c ∈ p.data, c ≠ '\n') →
    pySplitNl (joinSep "\n" ls) = ls
  | [], h, _ => absurd rfl h
  | [x], _, h2 => by
    rw [joinSep, pySplitNl, splitNlCh_single x.data (h2 x (List.mem_singleton.2 rfl))]
    simp [strEta]
  | x :: y :: ls, _, h2 => by
    have ih := pySplitNl_joinSep (y :: ls) (by simp)
      (fun p hp => h2 p (List.mem_cons.2 (Or.inr hp)))
    rw [joinSep_cons2, pySplitNl]
    have hdata : (x ++ "\n" ++ joinSep "\n" (y :: ls)).data =
        x.data ++ '\n' :: (joinSep "\n" (y :: ls)).data := by
      simp [List.append_assoc]
    rw [hdata, splitNlCh_app x.data _ (h2 x (List.mem_cons_self _ _))]
    rw [List.map_cons, strEta]
    rw [show List.map String.mk (splitNlCh (joinSep "\n" (y :: ls)).data) =
        pySplitNl (joinSep "\n" (y :: ls)) from rfl, ih]

theorem renderTypedefs_reparse {r : List TD}
    (hsrc : ∀ td ∈ r, ∃ ln, pyParseLine ln = Except.ok td) :
    parseTypedefLines (renderTypedefs r) = Except.ok r := by
  have hok : ∀ td ∈ r, pyParseLine (renderTypedef td) = Except.ok td := by
    intro td htd
    obtain ⟨ln, hln⟩ := hsrc td htd
    exact (pyParseLine_render hln).1
  have hnl : ∀ td ∈ r, ∀ c ∈ (renderTypedef td).data, c ≠ '\n' := by
    intro td htd
    obtain ⟨ln, hln⟩ := hsrc td htd
    exact (pyParseLine_render hln).2
  rcases hr : r with _ | ⟨td0, rest⟩
  · rfl
  · rw [← hr]
    have hne : r.map renderTypedef ≠ [] := by rw [hr]; simp
    have hlines : ∀ p ∈ r.map renderTypedef, ∀ c ∈ p.data, c ≠ '\n' := by
      intro p hp
      obtain ⟨td, htd, rfl⟩ := List.mem_map.1 hp
      exact hnl td htd
    rw [parseTypedefLines, renderTypedefs, pySplitNl_joinSep (r.map renderTypedef) hne hlines]
    exact parseTypedefList_map_render hok



/-! ## Reachability and order properties of `sortPairs` -/

theorem Reachable.mem {l : List TD} {p : TD} (h : Reachable l p) : p ∈ l := by
  cases h <;> assumption

theorem nodup_new_inj {l : List TD} (h : (l.map TD.new).Nodup) {a b : TD}
    (ha : a ∈ l) (hb : b ∈ l) (he : a.new = b.new) : a = b :=
  List.inj_on_of_nodup_map h ha hb he

theorem sortPairs_sound {l : List TD} {p : TD} (hp : p ∈ sortPairs l) : Reachable l p := by
  rw [sortPairs] at hp
  refine expandF_sound l _ (basePairs l) (pendPairs l) 0 ?_ ?_ p hp
  · intro q hq
    exact Reachable.base (mem_basePairs.1 hq).1 (mem_basePairs.1 hq).2
  · intro q hq
    exact (mem_pendPairs.1 hq).1

theorem sortPairs_complete {l : List TD} {p : TD} (h : Reachable l p) : p ∈ sortPairs l := by
  induction h with
  | base hpl hold =>
    rw [sortPairs]
    exact mem_r_expandF _ _ _ _ (mem_basePairs.2 ⟨hpl, hold⟩)
  | step hpl hq hpo ih =>
    rename_i p' q'
    by_cases hb : p' ∈ basePairs l
    · rw [sortPairs]
      exact mem_r_expandF _ _ _ _ hb
    · have holdN : p'.old ∈ l.map TD.new := by
        by_contra hc
        exact hb (mem_basePairs.2 ⟨hpl, hc⟩)
      have hpend : p' ∈ pendPairs l := mem_pendPairs.2 ⟨hpl, holdN⟩
      rw [sortPairs]
      apply expandF_complete _ (basePairs l) (pendPairs l) 0 p' (by omega) hpend
      rw [List.drop_zero]
      rw [← sortPairs]
      refine List.mem_map.2 ⟨q', ih, ?_⟩
      exact hpo.symm

theorem reachable_not_in_cycle {l S : List TD} (hnd : (l.map TD.new).Nodup)
    (hSsub : ∀ p ∈ S, p ∈ l) (hScyc : ∀ p ∈ S, ∃ q ∈ S, p.old = q.new) :
    ∀ p, Reachable l p → p ∉ S := by
  intro p h
  induction h with
  | base hpl hold =>
    rename_i p'
    intro hpS
    obtain ⟨q, hqS, hq⟩ := hScyc p' hpS
    apply hold
    rw [hq]
    exact List.mem_map.2 ⟨q, hSsub q hqS, rfl⟩
  | step hpl hq hpo ih =>
    rename_i p' q'
    intro hpS
    obtain ⟨sq, hsqS, hsq⟩ := hScyc p' hpS
    have hqsq : q' = sq :=
      nodup_new_inj hnd hq.mem (hSsub sq hsqS) (by rw [← hpo, hsq])
    exact ih (hqsq ▸ hsqS)

/-- C5: `sort_typedefs` is idempotent: re-running it on its own successful
output yields exactly that output again. -/
theorem sort_typedefs_idempotent (s t : String) (h : sort_typedefs s = Except.ok t) :
    sort_typedefs t = Except.ok t := by
  rw [sort_typedefs] at h
  rcases hp : parseTypedefLines s with e | l
  · rw [hp] at h
    exact absurd h (by simp)
  · rw [hp] at h
    have ht : t = renderTypedefs (sortPairs l) := (Except.ok.inj h).symm
    have hsrc : ∀ td ∈ sortPairs l, ∃ ln, pyParseLine ln = Except.ok td := by
      intro td htd
      exact parseTypedefList_src hp td (mem_sortPairs htd)
    have hre : parseTypedefLines t = Except.ok (sortPairs l) := by
      rw [ht]
      exact renderTypedefs_reparse hsrc
    rw [sort_typedefs, hre]
    dsimp only
    rw [sortPairs_idem, ← ht]

theorem sort_typedefs_idempotent_witness :
    sort_typedefs "typedef A B;\ntypedef int A;" = Except.ok "typedef int A;\ntypedef A B;" ∧
    sort_typedefs "typedef int A;\ntypedef A B;" = Except.ok "typedef int A;\ntypedef A B;" :=
  ⟨by rfl, sort_typedefs_idempotent "typedef A B;\ntypedef int A;" "typedef int A;\ntypedef A B;" (by rfl)⟩

/-- C2 (amended): for a well-formed typedef block whose new-type names are
pairwise distinct, whenever one output pair's old type equals another output
pair's new type, the producer appears strictly before the consumer in
`sortPairs`' output. -/
theorem sort_typedefs_producer_before_consumer (s : String) (l : List TD)
    (hp : parseTypedefLines s = Except.ok l) (hnd : (l.map TD.new).Nodup)
    (j k : Nat) (hj : j < (sortPairs l).length) (hk : k < (sortPairs l).length)
    (hdep : ((sortPairs l).get ⟨j, hj⟩).old = ((sortPairs l).get ⟨k, hk⟩).new) :
    k < j := by
  have hinv := expandF_take_inv (l.map TD.new)
    ((basePairs l).length + (pendPairs l).length) (basePairs l) (pendPairs l) 0
    (by
      intro j0 hj0
      right
      exact (mem_basePairs.1 ((basePairs l).get_mem j0 hj0)).2)
    j (by rw [sortPairs] at hj; exact hj)
  have hinv2 : ((sortPairs l).get ⟨j, hj⟩).old ∈ ((sortPairs l).take j).map TD.new ∨
      ((sortPairs l).get ⟨j, hj⟩).old ∉ l.map TD.new := hinv
  clear hinv
  have hkN : ((sortPairs l).get ⟨k, hk⟩).new ∈ l.map TD.new :=
    List.mem_map.2 ⟨(sortPairs l).get ⟨k, hk⟩, mem_sortPairs ((sortPairs l).get_mem _ _), rfl⟩
  rcases hinv2 with hinv | hinv
  · obtain ⟨q, hqmem, hqnew⟩ := List.mem_map.1 hinv
    obtain ⟨i0, hlt, hq⟩ := List.mem_iff_getElem.1 hqmem
    have hij : i0 < j := by
      rw [List.length_take] at hlt
      omega
    have hil : i0 < (sortPairs l).length := by
      rw [List.length_take] at hlt
      omega
    have hsome : (sortPairs l)[i0]? = some q := by
      rw [← List.getElem?_take_of_lt (l := sortPairs l) hij, List.getElem?_eq_getElem hlt, hq]
    have hout_i : (sortPairs l).get ⟨i0, hil⟩ = q := by
      rw [List.get_eq_getElem]
      rw [List.getElem?_eq_getElem hil] at hsome
      exact Option.some.inj hsome
    have hnodup2 : ((sortPairs l).map TD.new).Nodup := sortPairs_new_nodup hnd
    have heq : i0 = k := by
      have hgl : ((sortPairs l).map TD.new).get ⟨i0, by simpa using hil⟩ =
          ((sortPairs l).map TD.new).get ⟨k, by simpa using hk⟩ := by
        simp only [List.get_eq_getElem, List.getElem_map]
        rw [show (sortPairs l)[i0] = q from by
          rw [← List.get_eq_getElem (sortPairs l) ⟨i0, hil⟩]
          exact hout_i]
        rw [hqnew]
        rw [show (sortPairs l)[k] = (sortPairs l).get ⟨k, hk⟩ from
          (List.get_eq_getElem (sortPairs l) ⟨k, hk⟩).symm]
        exact hdep
      exact congrArg Fin.val (hnodup2.get_inj_iff.1 hgl)
    omega
  · exact absurd (hdep ▸ hkN) hinv



theorem sort_typedefs_producer_before_consumer_witness :
    parseTypedefLines "typedef int A;\ntypedef A B;" =
      Except.ok [⟨"A", "int"⟩, ⟨"B", "A"⟩] ∧ 0 < 1 :=
  ⟨by rfl,
   sort_typedefs_producer_before_consumer "typedef int A;\ntypedef A B;"
     [⟨"A", "int"⟩, ⟨"B", "A"⟩] (by rfl) (by decide) 1 0 (by decide) (by decide) (by decide)⟩

/-- C2 counterexample: with duplicate new-type names the claimed ordering
guarantee fails: in the output of the block below, the pair
`typedef A B;` (whose old type `A` is the new type of `typedef C A;`)
appears at index 1 while its producer `typedef C A;` appears at index 3. -/
theorem sort_typedefs_order_claim_false :
    parseTypedefLines "typedef int A;\ntypedef C A;\ntypedef A B;\ntypedef B C;" =
      Except.ok [⟨"A", "int"⟩, ⟨"A", "C"⟩, ⟨"B", "A"⟩, ⟨"C", "B"⟩] ∧
    sortPairs [⟨"A", "int"⟩, ⟨"A", "C"⟩, ⟨"B", "A"⟩, ⟨"C", "B"⟩] =
      [⟨"A", "int"⟩, ⟨"B", "A"⟩, ⟨"C", "B"⟩, ⟨"A", "C"⟩] ∧
    (⟨"B", "A"⟩ : TD).old = (⟨"A", "C"⟩ : TD).new ∧
    List.indexOf (⟨"A", "C"⟩ : TD)
      (sortPairs [⟨"A", "int"⟩, ⟨"A", "C"⟩, ⟨"B", "A"⟩, ⟨"C", "B"⟩]) = 3 ∧
    List.indexOf (⟨"B", "A"⟩ : TD)
      (sortPairs [⟨"A", "int"⟩, ⟨"A", "C"⟩, ⟨"B", "A"⟩, ⟨"C", "B"⟩]) = 1 :=
  ⟨by rfl, by rfl, by rfl, by rfl, by rfl⟩

/-- C4 (amended): for a well-formed typedef block whose new-type names are
pairwise distinct, `sort_typedefs` raises no error, every pair of a
dependency cycle is omitted from the output, and every base-case or
unlockable pair is emitted. -/
theorem sort_typedefs_cycles_dropped (s : String) (l S : List TD)
    (hp : parseTypedefLines s = Except.ok l) (hnd : (l.map TD.new).Nodup)
    (hSsub : ∀ p ∈ S, p ∈ l) (hScyc : ∀ p ∈ S, ∃ q ∈ S, p.old = q.new) :
    (∃ t, sort_typedefs s = Except.ok t) ∧
    (∀ p ∈ S, p ∉ sortPairs l) ∧
    (∀ p, Reachable l p → p ∈ sortPairs l) := by
  refine ⟨⟨renderTypedefs (sortPairs l), by rw [sort_typedefs, hp]⟩, ?_, ?_⟩
  · intro p hpS hpout
    exact reachable_not_in_cycle hnd hSsub hScyc p (sortPairs_sound hpout) hpS
  · intro p hr
    exact sortPairs_complete hr

theorem sort_typedefs_cycles_dropped_witness :
    parseTypedefLines "typedef int A;\ntypedef B B;" =
      Except.ok [⟨"A", "int"⟩, ⟨"B", "B"⟩] ∧
    ((∃ t, sort_typedefs "typedef int A;\ntypedef B B;" = Except.ok t) ∧
     (∀ p ∈ [(⟨"B", "B"⟩ : TD)], p ∉ sortPairs [⟨"A", "int"⟩, ⟨"B", "B"⟩]) ∧
     (∀ p, Reachable [⟨"A", "int"⟩, ⟨"B", "B"⟩] p →
        p ∈ sortPairs [⟨"A", "int"⟩, ⟨"B", "B"⟩])) :=
  ⟨by rfl,
   sort_typedefs_cycles_dropped "typedef int A;\ntypedef B B;"
     [⟨"A", "int"⟩, ⟨"B", "B"⟩] [⟨"B", "B"⟩] (by rfl) (by decide) (by decide) (by decide)⟩

/-- C4 counterexample: with duplicate new-type names a cycle subset is not
always dropped: in `typedef int A; typedef B A; typedef A B;` the pairs
`(A, B)` and `(B, A)` form a dependency cycle in the claim's sense, yet
`(B, A)` (and indeed `(A, B)`) is emitted. -/
theorem sort_typedefs_cycle_claim_false :
    parseTypedefLines "typedef int A;\ntypedef B A;\ntypedef A B;" =
      Except.ok [⟨"A", "int"⟩, ⟨"A", "B"⟩, ⟨"B", "A"⟩] ∧
    (⟨"A", "B"⟩ : TD) ∈ [(⟨"A", "int"⟩ : TD), ⟨"A", "B"⟩, ⟨"B", "A"⟩] ∧
    (⟨"B", "A"⟩ : TD) ∈ [(⟨"A", "int"⟩ : TD), ⟨"A", "B"⟩, ⟨"B", "A"⟩] ∧
    (⟨"A", "B"⟩ : TD).old = (⟨"B", "A"⟩ : TD).new ∧
    (⟨"B", "A"⟩ : TD).old = (⟨"A", "B"⟩ : TD).new ∧
    (⟨"B", "A"⟩ : TD) ∈ sortPairs [⟨"A", "int"⟩, ⟨"A", "B"⟩, ⟨"B", "A"⟩] :=
  ⟨by rfl, by decide, by decide, by rfl, by rfl, by decide⟩



/-! ## Dictionary lemmas and the scan phase (C10) -/

theorem alookup_map_at (n : String) (g : List String → List String) :
    ∀ (d : List (String × List String)),
    alookup n (d.map (fun p => if p.1 = n then (p.1, g p.2) else p)) =
      Option.map g (alookup n d)
  | [] => rfl
  | p :: ps => by
    by_cases hp : p.1 = n
    · simp [alookup, hp]
    · simp only [List.map_cons, if_neg hp]
      rw [alookup, if_neg hp, alookup, if_neg hp]
      exact alookup_map_at n g ps

theorem alookup_map_at_ne (k n : String) (hne : k ≠ n) (g : List String → List String) :
    ∀ (d : List (String × List String)),
    alookup n (d.map (fun p => if p.1 = k then (p.1, g p.2) else p)) = alookup n d
  | [] => rfl
  | p :: ps => by
    by_cases hp : p.1 = k
    · rw [List.map_cons, if_pos hp, alookup, alookup]
      simp only []
      rw [if_neg (by rw [hp]; exact hne), if_neg (by rw [hp]; exact hne)]
      exact alookup_map_at_ne k n hne g ps
    · rw [List.map_cons, if_neg hp, alookup, alookup]
      by_cases hpn : p.1 = n
      · rw [if_pos hpn, if_pos hpn]
      · rw [if_neg hpn, if_neg hpn]
        exact alookup_map_at_ne k n hne g ps

theorem alookup_map_ne (k n : String) (hne : k ≠ n) (v : List String) :
    ∀ (d : List (String × List String)),
    alookup n (d.map (fun p => if p.1 = k then (p.1, v) else p)) = alookup n d
  | [] => rfl
  | p :: ps => by
    by_cases hp : p.1 = k
    · rw [List.map_cons, if_pos hp, alookup, alookup]
      simp only []
      rw [if_neg (by rw [hp]; exact hne), if_neg (by rw [hp]; exact hne)]
      exact alookup_map_ne k n hne v ps
    · rw [List.map_cons, if_neg hp, alookup, alookup]
      by_cases hpn : p.1 = n
      · rw [if_pos hpn, if_pos hpn]
      · rw [if_neg hpn, if_neg hpn]
        exact alookup_map_ne k n hne v ps

theorem alookup_append_single (n k : String) (v : List String) :
    ∀ (d : List (String × List String)),
    alookup n (d ++ [(k, v)]) =
      match alookup n d with
      | some w => some w
      | none => if k = n then some v else none
  | [] => by simp [alookup]
  | p :: ps => by
    rw [List.cons_append, alookup, alookup]
    by_cases hpn : p.1 = n
    · rw [if_pos hpn, if_pos hpn]
    · rw [if_neg hpn, if_neg hpn]
      exact alookup_append_single n k v ps

theorem alookup_dictSet_ne (d : List (String × List String)) (k n : String)
    (hne : k ≠ n) (v : List String) : alookup n (dictSet d k v) = alookup n d := by
  rw [dictSet]
  by_cases hs : (alookup k d).isSome
  · rw [if_pos hs]
    exact alookup_map_ne k n hne v d
  · rw [if_neg hs, alookup_append_single]
    rcases h : alookup n d with _ | w
    · rw [if_neg hne]
    · rfl

theorem alookup_dictSet_eq (d : List (String × List String)) (k : String)
    (v : List String) : alookup k (dictSet d k v) = some v := by
  rw [dictSet]
  by_cases hs : (alookup k d).isSome
  · rw [if_pos hs]
    have h2 := alookup_map_at k (fun _ => v) d
    rcases h : alookup k d with _ | w
    · rw [h] at hs; simp at hs
    · rw [h] at h2
      exact h2.trans rfl
  · rw [if_neg hs, alookup_append_single]
    rcases h : alookup k d with _ | w
    · rw [if_pos rfl]
    · rw [h] at hs; simp at hs

theorem markerNameOf_some {raw n : String} (h : markerNameOf raw = some n) :
    isMarkerLine raw = true ∧ markerSection raw = n := by
  rw [markerNameOf] at h
  by_cases hm : isMarkerLine raw
  · rw [if_pos hm] at h
    exact ⟨hm, Option.some.inj h⟩
  · rw [if_neg hm] at h
    exact absurd h (by simp)

theorem scan_frozen : ∀ (ls : List String) (st : ScanState) (n : String),
    (∀ l0 ∈ ls, markerNameOf l0 ≠ some n) → st.current ≠ some n →
    alookup n (ls.foldl scanStep st).sections = alookup n st.sections
  | [], _, _, _, _ => rfl
  | l0 :: ls, st, n, hm, hc => by
    rw [List.foldl_cons]
    have hstep : alookup n (scanStep st l0).sections = alookup n st.sections ∧
        (scanStep st l0).current ≠ some n := by
      rw [scanStep]
      by_cases hml : isMarkerLine l0
      · rw [if_pos hml]
        have hname : markerSection l0 ≠ n := by
          intro he
          exact hm l0 (List.mem_cons_self _ _) (by rw [markerNameOf, if_pos hml, he])
        exact ⟨alookup_dictSet_ne _ _ _ hname _, by simpa using hname⟩
      · rw [if_neg hml]
        rcases hcur : st.current with _ | m
        · exact ⟨rfl, by rw [hcur] at hc ⊢; exact hc⟩
        · have hmn : m ≠ n := by
            intro he
            rw [hcur, he] at hc
            exact hc rfl
          exact ⟨alookup_map_at_ne m n hmn (fun w => w ++ [pyRstrip l0]) _, by simpa using hmn⟩
    rw [scan_frozen ls (scanStep st l0) n (fun u hu => hm u (List.mem_cons.2 (Or.inr hu))) hstep.2]
    exact hstep.1

theorem scan_acc : ∀ (ls : List String) (st : ScanState) (n : String) (acc : List String),
    (∀ l0 ∈ ls, markerNameOf l0 ≠ some n) → st.current = some n →
    alookup n st.sections = some acc →
    alookup n (ls.foldl scanStep st).sections =
      some (acc ++ (ls.takeWhile (fun l0 => !(isMarkerLine l0))).map pyRstrip)
  | [], _, _, acc, _, _, hl => by simpa using hl
  | l0 :: ls, st, n, acc, hm, hc, hl => by
    rw [List.foldl_cons]
    by_cases hml : isMarkerLine l0
    · have hname : markerSection l0 ≠ n := by
        intro he
        exact hm l0 (List.mem_cons_self _ _) (by rw [markerNameOf, if_pos hml, he])
      have hstepc : (scanStep st l0).current = some (markerSection l0) := by
        rw [scanStep, if_pos hml]
      have hstepl : alookup n (scanStep st l0).sections = some acc := by
        rw [scanStep, if_pos hml]
        exact (alookup_dictSet_ne _ _ _ hname _).trans hl
      rw [scan_frozen ls (scanStep st l0) n (fun u hu => hm u (List.mem_cons.2 (Or.inr hu)))
        (by rw [hstepc]; simpa using hname), hstepl]
      rw [List.takeWhile_cons, show (!isMarkerLine l0) = false from by simp [hml]]
      simp
    · have hstepc : (scanStep st l0).current = some n := by
        rw [scanStep, if_neg hml, hc]
      have hstepl : alookup n (scanStep st l0).sections = some (acc ++ [pyRstrip l0]) := by
        rw [scanStep, if_neg hml, hc]
        have h2 := alookup_map_at n (fun w => w ++ [pyRstrip l0]) st.sections
        rw [hl] at h2
        exact h2.trans rfl
      rw [scan_acc ls (scanStep st l0) n (acc ++ [pyRstrip l0])
        (fun u hu => hm u (List.mem_cons.2 (Or.inr hu))) hstepc hstepl]
      rw [List.takeWhile_cons, show (!isMarkerLine l0) = true from by simp [hml]]
      simp

/-- C10: when a section name appears on two or more marker lines, the scan
phase of the sectioned-file parser binds that name only to the
(right-stripped) lines following the last such marker, up to the next marker
of any name; content accumulated after earlier same-named markers is
discarded, and no error is raised. -/
theorem scan_last_marker_wins (front rest : List String) (m n : String)
    (hm : markerNameOf m = some n)
    (hfr : ∃ l0 ∈ front, markerNameOf l0 = some n)
    (hrest : ∀ l0 ∈ rest, markerNameOf l0 ≠ some n) :
    alookup n (scanSections (front ++ m :: rest)) =
      some ((rest.takeWhile (fun l0 => !(isMarkerLine l0))).map pyRstrip) := by
  obtain ⟨hmark, hsec⟩ := markerNameOf_some hm
  rw [scanSections, List.foldl_append, List.foldl_cons]
  have hstep : scanStep (front.foldl scanStep ⟨[], none⟩) m =
      ⟨dictSet (front.foldl scanStep ⟨[], none⟩).sections n [], some n⟩ := by
    rw [scanStep, if_pos hmark, hsec]
  rw [hstep]
  exact scan_acc rest _ n [] hrest rfl (alookup_dictSet_eq _ n [])

theorem scan_last_marker_wins_witness :
    markerNameOf "/*| a |*/" = some "a" ∧
    alookup "a" (scanSections ["/*| a |*/", "x", "/*| a |*/", "y", "z", "/*| b |*/", "w"]) =
      some ["y", "z"] :=
  ⟨by rfl, by
    exact scan_last_marker_wins ["/*| a |*/", "x"] ["y", "z", "/*| b |*/", "w"]
      "/*| a |*/" "a" (by rfl) (by decide) (by decide)⟩



/-! ## Section aggregation (C7) -/

theorem alookup_eq_none {α : Type _} {n : String} : ∀ {ps : List (String × α)},
    n ∉ ps.map Prod.fst → alookup n ps = none
  | [], _ => rfl
  | p :: ps, h => by
    have h1 : p.1 ≠ n := by
      intro he
      exact h (List.mem_map.2 ⟨p, List.mem_cons_self _ _, he⟩)
    have h2 : n ∉ ps.map Prod.fst := by
      intro hc
      rw [List.map_cons] at h
      exact h (List.mem_cons.2 (Or.inr hc))
    rw [alookup, if_neg h1]
    exact alookup_eq_none h2

theorem alookup_step (acc : List (String × List String)) (p : String × String) (n : String) :
    alookup n
      (match alookup p.1 acc with
       | none => dictSet acc p.1 [p.2]
       | some l => dictSet acc p.1 (l ++ [p.2])) =
    if p.1 = n then some ((alookup n acc).getD [] ++ [p.2]) else alookup n acc := by
  rcases hacc : alookup p.1 acc with _ | l
  · by_cases hpn : p.1 = n
    · rw [if_pos hpn]
      rw [hpn] at hacc
      rw [← hpn, alookup_dictSet_eq, hpn, hacc]
      rfl
    · rw [if_neg hpn]
      exact alookup_dictSet_ne _ _ _ hpn _
  · by_cases hpn : p.1 = n
    · rw [if_pos hpn]
      rw [hpn] at hacc
      rw [← hpn, alookup_dictSet_eq, hpn, hacc]
      rfl
    · rw [if_neg hpn]
      exact alookup_dictSet_ne _ _ _ hpn _

theorem alookup_addComponent (n : String) :
    ∀ (res : List (String × String)) (acc : List (String × List String)),
    (res.map Prod.fst).Nodup →
    alookup n (addComponentSections acc res) =
      match alookup n res with
      | none => alookup n acc
      | some c => some ((alookup n acc).getD [] ++ [c])
  | [], acc, _ => by
    rw [show addComponentSections acc [] = acc from rfl]
    rfl
  | p :: ps, acc, hnd => by
    have hnd2 : (ps.map Prod.fst).Nodup := by
      rw [List.map_cons, List.nodup_cons] at hnd
      exact hnd.2
    have hkey : p.1 ∉ ps.map Prod.fst := by
      rw [List.map_cons, List.nodup_cons] at hnd
      exact hnd.1
    have hfold : addComponentSections acc (p :: ps) =
        addComponentSections
          (match alookup p.1 acc with
           | none => dictSet acc p.1 [p.2]
           | some l => dictSet acc p.1 (l ++ [p.2])) ps := rfl
    rw [hfold, alookup_addComponent n ps _ hnd2, alookup_step]
    by_cases hpn : p.1 = n
    · have hps : alookup n ps = none := alookup_eq_none (by rw [← hpn]; exact hkey)
      rw [hps, if_pos hpn, alookup, if_pos hpn]
    · rw [if_neg hpn, alookup, if_neg hpn]

theorem alookup_gms_aux (n : String) :
    ∀ (results : List (List (String × String))) (acc : List (String × List String)),
    (∀ r ∈ results, (r.map Prod.fst).Nodup) →
    alookup n (results.foldl addComponentSections acc) =
      match alookup n acc with
      | some l => some (l ++ results.filterMap (fun r => alookup n r))
      | none =>
        if results.filterMap (fun r => alookup n r) = [] then none
        else some (results.filterMap (fun r => alookup n r))
  | [], acc, _ => by
    rcases hacc : alookup n acc with _ | l <;> simp [hacc]
  | r :: rs, acc, hnd => by
    rw [List.foldl_cons, alookup_gms_aux n rs _ (fun u hu => hnd u (List.mem_cons.2 (Or.inr hu)))]
    rw [alookup_addComponent n r acc (hnd r (List.mem_cons_self _ _))]
    rcases hr : alookup n r with _ | c
    · rcases hacc : alookup n acc with _ | l
      · simp [List.filterMap_cons, hr]
      · simp [List.filterMap_cons, hr]
    · rcases hacc : alookup n acc with _ | l
      · simp [List.filterMap_cons, hr]
      · simp [List.filterMap_cons, hr]

/-- C7: for every list of per-component parse results (one insertion-ordered
dictionary with unique keys per successfully parsed component),
`get_module_sections` binds each section name to exactly the in-order list
of each contributing component's content for that name: one entry per
contributing component, in component-list order, with no reordering and no
deduplication. -/
theorem get_module_sections_per_name (results : List (List (String × String)))
    (hnd : ∀ r ∈ results, (r.map Prod.fst).Nodup) (n : String) :
    alookup n (get_module_sections results) =
      if results.filterMap (fun r => alookup n r) = [] then none
      else some (results.filterMap (fun r => alookup n r)) := by
  rw [get_module_sections, alookup_gms_aux n results [] hnd]
  rfl

theorem get_module_sections_per_name_witness :
    (∀ r ∈ [[("functions", "X")], [("functions", "Y")]],
      (r.map Prod.fst).Nodup) ∧
    alookup "functions" (get_module_sections [[("functions", "X")], [("functions", "Y")]]) =
      (if ([[("functions", "X")], [("functions", "Y")]].filterMap
            (fun r => alookup "functions" r)) = [] then none
       else some ([[("functions", "X")], [("functions", "Y")]].filterMap
            (fun r => alookup "functions" r))) :=
  ⟨by decide,
   get_module_sections_per_name [[("functions", "X")], [("functions", "Y")]] (by decide) "functions"⟩



/-! ## Header rendering (C8), component parsing (C9, C1, C3) -/

theorem strExt {a b : String} (h : a.data = b.data) : a = b := by
  cases a
  cases b
  cases h
  rfl

theorem strAppend_assoc (a b c : String) : a ++ b ++ c = a ++ (b ++ c) := by
  apply strExt
  simp [List.append_assoc]

/-- C8: for every module whose header write succeeds, the generated header
text begins with the two lines with the include guard derived from the
module's name (`rtos-` plus the skeleton name, upper-cased, dashes replaced
by underscores) and ends with the matching `#endif` comment line. -/
theorem render_header_guard (skeletonName : String) (sections : List (String × List String))
    (t : String) (h : renderHeader skeletonName sections = Except.ok t) :
    (∃ body : String,
      t = ("#ifndef " ++ headerGuardName skeletonName ++ "_H\n" ++
           ("#define " ++ headerGuardName skeletonName ++ "_H\n")) ++ body) ∧
    (∃ pre : String,
      t = pre ++ ("#endif /* " ++ headerGuardName skeletonName ++ "_H */")) ∧
    headerGuardName skeletonName = dashToUnderscore (pyUpper ("rtos-" ++ skeletonName)) := by
  rw [renderHeader] at h
  rcases hm : headerSections.mapM (fun ss => alookup ss sections) with _ | bls
  · rw [hm] at h
    exact absurd h (by simp)
  · rw [hm] at h
    have ht : t = "#ifndef " ++ headerGuardName skeletonName ++ "_H\n" ++
        "#define " ++ headerGuardName skeletonName ++ "_H\n" ++
        strConcat ((bls.flatten).map (fun data => data ++ "\n")) ++
        "\n#endif /* " ++ headerGuardName skeletonName ++ "_H */" := (Except.ok.inj h).symm
    refine ⟨⟨strConcat ((bls.flatten).map (fun data => data ++ "\n")) ++
        "\n#endif /* " ++ headerGuardName skeletonName ++ "_H */", ?_⟩,
      ⟨"#ifndef " ++ headerGuardName skeletonName ++ "_H\n" ++
        "#define " ++ headerGuardName skeletonName ++ "_H\n" ++
        strConcat ((bls.flatten).map (fun data => data ++ "\n")) ++ "\n", ?_⟩, rfl⟩
    · rw [ht]
      apply strExt
      simp [List.append_assoc]
    · rw [ht]
      apply strExt
      simp [List.append_assoc]

theorem render_header_guard_witness :
    renderHeader "acamar"
      [("public_headers", ["h1"]), ("public_type_definitions", []),
       ("public_object_like_macros", []), ("public_function_like_macros", []),
       ("public_extern_definitions", []), ("public_function_definitions", ["f"])] =
      Except.ok "#ifndef RTOS_ACAMAR_H\n#define RTOS_ACAMAR_H\nh1\nf\n\n#endif /* RTOS_ACAMAR_H */" ∧
    ((∃ body : String,
      "#ifndef RTOS_ACAMAR_H\n#define RTOS_ACAMAR_H\nh1\nf\n\n#endif /* RTOS_ACAMAR_H */" =
        ("#ifndef " ++ headerGuardName "acamar" ++ "_H\n" ++
         ("#define " ++ headerGuardName "acamar" ++ "_H\n")) ++ body) ∧
     (∃ pre : String,
      "#ifndef RTOS_ACAMAR_H\n#define RTOS_ACAMAR_H\nh1\nf\n\n#endif /* RTOS_ACAMAR_H */" =
        pre ++ ("#endif /* " ++ headerGuardName "acamar" ++ "_H */")) ∧
     headerGuardName "acamar" = dashToUnderscore (pyUpper ("rtos-" ++ "acamar"))) :=
  ⟨by rfl,
   render_header_guard "acamar"
     [("public_headers", ["h1"]), ("public_type_definitions", []),
      ("public_object_like_macros", []), ("public_function_like_macros", []),
      ("public_extern_definitions", []), ("public_function_definitions", ["f"])]
     "#ifndef RTOS_ACAMAR_H\n#define RTOS_ACAMAR_H\nh1\nf\n\n#endif /* RTOS_ACAMAR_H */" (by rfl)⟩

/-- C9: when the second argument of `Component.parse` is not a dictionary
(in particular an `Architecture`), the parse does not fail on the argument's
type: the configuration-merge step is skipped, the base configuration is
used unchanged, and the parse behaves exactly as a parse with an empty
extra configuration. -/
theorem component_parse_nondict_uses_base (env : Env) (c : PyComponent) (topdir : String)
    (arg : ParseArg) (h : arg.isDict = false) :
    componentParseConfiguration c.configuration arg = c.configuration ∧
    componentParse env c topdir arg = componentParse env c topdir (ParseArg.dict []) := by
  rcases arg with d | a
  · rw [ParseArg.isDict] at h
    exact absurd h (by simp)
  · exact ⟨rfl, rfl⟩

theorem component_parse_nondict_uses_base_witness :
    (ParseArg.arch ⟨"armv7m", [("k", "v")]⟩).isDict = false ∧
    (componentParseConfiguration (⟨"ctxt", "ctxt", [("b", "c")]⟩ : PyComponent).configuration
       (ParseArg.arch ⟨"armv7m", [("k", "v")]⟩) =
       (⟨"ctxt", "ctxt", [("b", "c")]⟩ : PyComponent).configuration ∧
     componentParse ⟨fun _ _ n => [n], fun _ => false, fun _ => [], fun _ _ _ => ""⟩
       ⟨"ctxt", "ctxt", [("b", "c")]⟩ "" (ParseArg.arch ⟨"armv7m", [("k", "v")]⟩) =
     componentParse ⟨fun _ _ n => [n], fun _ => false, fun _ => [], fun _ _ _ => ""⟩
       ⟨"ctxt", "ctxt", [("b", "c")]⟩ "" (ParseArg.dict [])) :=
  ⟨rfl,
   component_parse_nondict_uses_base
     ⟨fun _ _ n => [n], fun _ => false, fun _ => [], fun _ _ _ => ""⟩
     ⟨"ctxt", "ctxt", [("b", "c")]⟩ "" (ParseArg.arch ⟨"armv7m", [("k", "v")]⟩) rfl⟩

/-- C1 (amended): `ArchitectureComponent.parse` attempts the naming pattern
`{arch}-{resource}/{arch}-{resource}.c` first and `{resource}-{arch}.c`
second, delegates to the sectioned-file parser (with the component's base
configuration) on the first pattern that resolves, and fails naming both
resource and architecture when neither resolves. -/
theorem archComponentParse_pattern_order (env : Env) (c : PyComponent) (topdir : String)
    (arch : Architecture) :
    archPatterns arch.name c.resourceName =
      [arch.name ++ "-" ++ c.resourceName ++ "/" ++ arch.name ++ "-" ++ c.resourceName ++ ".c",
       c.resourceName ++ "-" ++ arch.name ++ ".c"] ∧
    archComponentParse env c topdir arch =
      (match (componentFind env topdir (arch.name ++ "-" ++ c.resourceName ++ "/" ++
          arch.name ++ "-" ++ c.resourceName ++ ".c")).toOption with
       | some f => parseSectionedFile env f c.configuration
       | none =>
         match (componentFind env topdir (c.resourceName ++ "-" ++ arch.name ++ ".c")).toOption with
         | some f => parseSectionedFile env f c.configuration
         | none => Except.error ("Unable to find component " ++ c.resourceName ++
             " for architecture " ++ arch.name)) := by
  refine ⟨rfl, ?_⟩
  rw [archComponentParse, archPatterns]
  rcases h1 : (componentFind env topdir (arch.name ++ "-" ++ c.resourceName ++ "/" ++
      arch.name ++ "-" ++ c.resourceName ++ ".c")).toOption with _ | f1 <;>
    rcases h2 : (componentFind env topdir (c.resourceName ++ "-" ++ arch.name ++ ".c")).toOption
      with _ | f2 <;>
    simp [List.findSome?_cons, List.findSome?_nil, h1, h2, archParseConfiguration]

/-- C1 counterexample: when only the file matching the claimed first pattern
`{resource}-{arch}/{resource}-{arch}.c` exists, the parse does not find it
and fails, because the code's first pattern is
`{arch}-{resource}/{arch}-{resource}.c` and its second is
`{resource}-{arch}.c`. -/
theorem archComponentParse_claimed_order_false :
    (⟨fun _ _ n => [n], fun p => p == "ctxt-armv7m/ctxt-armv7m.c", fun _ => [],
      fun _ _ _ => ""⟩ : Env).pathExists "ctxt-armv7m/ctxt-armv7m.c" = true ∧
    archComponentParse
      ⟨fun _ _ n => [n], fun p => p == "ctxt-armv7m/ctxt-armv7m.c", fun _ => [],
        fun _ _ _ => ""⟩
      ⟨"ctxt", "ctxt", []⟩ "" ⟨"armv7m", []⟩ =
      Except.error "Unable to find component ctxt for architecture armv7m" :=
  ⟨by rfl, by rfl⟩

/-- C3 (amended): the configuration that `ArchitectureComponent.parse`
supplies to the templating pass is exactly the component's base
configuration; the architecture's configuration mapping is not consulted,
so two architectures with the same name and different configuration
mappings produce identical parses. -/
theorem archComponentParse_ignores_arch_configuration (env : Env) (c : PyComponent)
    (topdir : String) (a1 a2 : Architecture) (hname : a1.name = a2.name) :
    archParseConfiguration c a1 = c.configuration ∧
    archComponentParse env c topdir a1 = archComponentParse env c topdir a2 := by
  refine ⟨rfl, ?_⟩
  rw [archComponentParse, archComponentParse, hname]
  rfl

theorem archComponentParse_ignores_arch_configuration_witness :
    (⟨"armv7m", [("k", "v")]⟩ : Architecture).name = (⟨"armv7m", []⟩ : Architecture).name ∧
    (archParseConfiguration ⟨"ctxt", "ctxt", []⟩ ⟨"armv7m", [("k", "v")]⟩ =
       (⟨"ctxt", "ctxt", []⟩ : PyComponent).configuration ∧
     archComponentParse ⟨fun _ _ n => [n], fun _ => false, fun _ => [], fun _ _ _ => ""⟩
       ⟨"ctxt", "ctxt", []⟩ "" ⟨"armv7m", [("k", "v")]⟩ =
     archComponentParse ⟨fun _ _ n => [n], fun _ => false, fun _ => [], fun _ _ _ => ""⟩
       ⟨"ctxt", "ctxt", []⟩ "" ⟨"armv7m", []⟩) :=
  ⟨rfl,
   archComponentParse_ignores_arch_configuration
     ⟨fun _ _ n => [n], fun _ => false, fun _ => [], fun _ _ _ => ""⟩
     ⟨"ctxt", "ctxt", []⟩ "" ⟨"armv7m", [("k", "v")]⟩ ⟨"armv7m", []⟩ rfl⟩

/-- C3 counterexample: an entry of the architecture's configuration mapping
is not included in the configuration supplied to the templating pass by
`ArchitectureComponent.parse`. -/
theorem arch_configuration_not_supplied :
    ("k", "v") ∈ (⟨"armv7m", [("k", "v")]⟩ : Architecture).configuration ∧
    ("k", "v") ∉ archParseConfiguration ⟨"ctxt", "ctxt", []⟩ ⟨"armv7m", [("k", "v")]⟩ :=
  ⟨by decide, by decide⟩



/-! ## Schema merging (C6) -/

theorem contains_false_iff {xs : List (Option String)} {x : Option String} :
    xs.contains x = false ↔ x ∉ xs := by
  simp

theorem findByNm_cons (n : String) (e : SchemaEntry) (es : List SchemaEntry) :
    findByNm n (e :: es) =
      if (e.nm == some n) = true then some e else findByNm n es := by
  by_cases hb : (e.nm == some n) = true
  · rw [if_pos hb, findByNm]
    exact List.find?_cons_of_pos es hb
  · rw [if_neg hb, findByNm, findByNm]
    exact List.find?_cons_of_neg es (by simpa using hb)

theorem mem_of_findByNm {n : String} {l : List SchemaEntry} {e : SchemaEntry}
    (h : findByNm n l = some e) : e ∈ l ∧ e.nm = some n := by
  rw [findByNm] at h
  refine ⟨List.mem_of_find?_eq_some h, ?_⟩
  have h2 := List.find?_some h
  exact eq_of_beq h2

theorem wf_cons {nm0 : Option String} {c es : List SchemaEntry}
    (h : wfSchemaList (SchemaEntry.mk nm0 c :: es) = true) :
    nm0.isSome = true ∧ ((es.map SchemaEntry.nm).contains nm0) = false ∧
    wfSchemaList c = true ∧ wfSchemaList es = true := by
  rw [wfSchemaList] at h
  simp only [Bool.and_eq_true] at h
  refine ⟨h.1.1.1, ?_, h.1.2, h.2⟩
  have h2 := h.1.1.2
  simp only [Bool.not_eq_true'] at h2
  exact h2

theorem wf_children_of_mem : ∀ {l : List SchemaEntry}, wfSchemaList l = true →
    ∀ {e : SchemaEntry}, e ∈ l → wfSchemaList e.ch = true := by
  intro l
  induction l with
  | nil => intro _ e he; exact absurd he (List.not_mem_nil e)
  | cons hd tl ih =>
    intro h e he
    rcases hd with ⟨nm0, c⟩
    obtain ⟨_, _, hc, htl⟩ := wf_cons h
    rcases List.mem_cons.1 he with he | he
    · rw [he]
      exact hc
    · exact ih htl he

theorem findByNm_of_mem_nm : ∀ {l : List SchemaEntry}, wfSchemaList l = true →
    ∀ {e : SchemaEntry} {n : String}, e ∈ l → e.nm = some n → findByNm n l = some e := by
  intro l
  induction l with
  | nil => intro _ e n he _; exact absurd he (List.not_mem_nil e)
  | cons hd tl ih =>
    intro h e n he hen
    rcases hd with ⟨nm0, c⟩
    obtain ⟨_, hnotin, _, htl⟩ := wf_cons h
    rw [findByNm_cons]
    by_cases hb : ((SchemaEntry.mk nm0 c).nm == some n) = true
    · rw [if_pos hb]
      rcases List.mem_cons.1 he with he0 | he0
      · rw [he0]
      · exfalso
        have hmemn : some n ∈ tl.map SchemaEntry.nm := List.mem_map.2 ⟨e, he0, hen⟩
        have hnm0 : (SchemaEntry.mk nm0 c).nm = some n := eq_of_beq hb
        rw [show (SchemaEntry.mk nm0 c).nm = nm0 from rfl] at hnm0
        rw [hnm0, contains_false_iff] at hnotin
        exact hnotin hmemn
    · rw [if_neg hb]
      rcases List.mem_cons.1 he with he0 | he0
      · exfalso
        apply hb
        have h3 : (SchemaEntry.mk nm0 c).nm = some n := by
          rw [← he0]
          exact hen
        exact beq_iff_eq.2 h3
      · exact ih htl he0 hen

theorem findByNm_append_ne {m : String} {e : SchemaEntry} (he : (e.nm == some m) = false)
    (xs : List SchemaEntry) : findByNm m (xs ++ [e]) = findByNm m xs := by
  induction xs with
  | nil =>
    rw [List.nil_append, findByNm_cons, if_neg (by simp [he])]
  | cons x xs ih =>
    rw [List.cons_append, findByNm_cons, findByNm_cons]
    by_cases hx : (x.nm == some m) = true
    · rw [if_pos hx, if_pos hx]
    · rw [if_neg hx, if_neg hx]
      exact ih

theorem findByNm_removeFirst_ne {m n : String} (hmn : m ≠ n) :
    ∀ (xs : List SchemaEntry), findByNm m (removeFirstNm n xs) = findByNm m xs
  | [] => rfl
  | e :: es => by
    by_cases hb : (e.nm == some n) = true
    · rw [removeFirstNm, if_pos hb, findByNm_cons]
      have hem : ¬ ((e.nm == some m) = true) := by
        intro hc
        have h1 := eq_of_beq hb
        have h2 := eq_of_beq hc
        rw [h1] at h2
        exact hmn (Option.some.inj h2).symm
      rw [if_neg hem]
    · rw [removeFirstNm, if_neg hb, findByNm_cons, findByNm_cons]
      by_cases hem : (e.nm == some m) = true
      · rw [if_pos hem, if_pos hem]
      · rw [if_neg hem, if_neg hem]
        exact findByNm_removeFirst_ne hmn es

theorem findByNm_replaceFirst_ne {m n : String} (hmn : m ≠ n) {newE : SchemaEntry}
    (hnew : newE.nm = some n) :
    ∀ (xs : List SchemaEntry), findByNm m (replaceFirstNm n newE xs) = findByNm m xs
  | [] => rfl
  | e :: es => by
    by_cases hb : (e.nm == some n) = true
    · rw [replaceFirstNm, if_pos hb, findByNm_cons, findByNm_cons]
      have hem : ¬ ((e.nm == some m) = true) := by
        intro hc
        have h1 := eq_of_beq hb
        have h2 := eq_of_beq hc
        rw [h1] at h2
        exact hmn (Option.some.inj h2).symm
      have hnem : ¬ ((newE.nm == some m) = true) := by
        intro hc
        have h2 := eq_of_beq hc
        rw [hnew] at h2
        exact hmn (Option.some.inj h2).symm
      rw [if_neg hem, if_neg hnem]
    · rw [replaceFirstNm, if_neg hb, findByNm_cons, findByNm_cons]
      by_cases hem : (e.nm == some m) = true
      · rw [if_pos hem, if_pos hem]
      · rw [if_neg hem, if_neg hem]
        exact findByNm_replaceFirst_ne hmn hnew es

theorem conflict_nil_b {a : List SchemaEntry} {path e : String}
    (h : ConflictErr a [] path e) : False := by
  cases h <;> simp_all

theorem conflict_lift {a rest : List SchemaEntry} {bc0 : SchemaEntry} {path e : String}
    (h : ConflictErr a rest path e) : ConflictErr a (bc0 :: rest) path e := by
  cases h with
  | here _ _ _ n ac bc hac hbc hacn hbcn hne =>
    exact ConflictErr.here _ _ _ n ac bc hac (List.mem_cons.2 (Or.inr hbc)) hacn hbcn hne
  | deeper _ _ _ m _ ac bc hac hbc hacn hbcn hin =>
    exact ConflictErr.deeper _ _ _ m _ ac bc hac (List.mem_cons.2 (Or.inr hbc)) hacn hbcn hin

theorem conflict_cons_elim {a rest : List SchemaEntry} {bc0 : SchemaEntry} {path e : String}
    (h : ConflictErr a (bc0 :: rest) path e) :
    (∃ ac, ac ∈ a ∧ ∃ n, ac.nm = some n ∧ bc0.nm = some n ∧
      ((¬(ac.ch.isEmpty = bc0.ch.isEmpty) ∧ e = schemaConflictMsg path n) ∨
       ConflictErr ac.ch bc0.ch (path ++ "." ++ n) e)) ∨
    ConflictErr a rest path e := by
  cases h with
  | here _ _ _ n ac bc hac hbc hacn hbcn hne =>
    rcases List.mem_cons.1 hbc with hbc0 | hbc0
    · exact Or.inl ⟨ac, hac, n, hacn, by rw [← hbc0]; exact hbcn,
        Or.inl ⟨by rw [← hbc0]; exact hne, rfl⟩⟩
    · exact Or.inr (ConflictErr.here _ _ _ n ac bc hac hbc0 hacn hbcn hne)
  | deeper _ _ _ m _ ac bc hac hbc hacn hbcn hin =>
    rcases List.mem_cons.1 hbc with hbc0 | hbc0
    · exact Or.inl ⟨ac, hac, m, hacn, by rw [← hbc0]; exact hbcn,
        Or.inr (by rw [← hbc0]; exact hin)⟩
    · exact Or.inr (ConflictErr.deeper _ _ _ m _ ac bc hac hbc0 hacn hbcn hin)


/-- Characterization of the merge loop: under the well-formedness
assumptions of `_merge_schema_entries`, the loop fails exactly on structural
conflicts, and any error it reports is the conflict message of some
conflicting dotted path. -/
theorem mergeLoop_char : ∀ (k : Nat) (bs : List SchemaEntry), sizeOf bs ≤ k →
    ∀ (a cur : List SchemaEntry) (path : String),
    wfSchemaList a = true → wfSchemaList bs = true →
    (∀ n : String, (some n) ∈ bs.map SchemaEntry.nm → findByNm n cur = findByNm n a) →
    ((∀ e, mergeLoop (a.map SchemaEntry.nm) cur bs path = Except.error e →
        ConflictErr a bs path e) ∧
     ((∃ e, ConflictErr a bs path e) →
        ∃ e, mergeLoop (a.map SchemaEntry.nm) cur bs path = Except.error e)) := by
  intro k
  induction k with
  | zero =>
    intro bs hk
    exfalso
    have h0 : 0 < sizeOf bs := by cases bs <;> simp_arith
    omega
  | succ k ih =>
    intro bs hk a cur path ha hb hinv
    rcases bs with _ | ⟨⟨bn, bch⟩, rest⟩
    · constructor
      · intro e he
        rw [mergeLoop] at he
        exact absurd he (by simp)
      · rintro ⟨e, hce⟩
        exact absurd hce (fun h => conflict_nil_b h)
    · rcases bn with _ | n
      · exfalso
        have h1 := (wf_cons hb).1
        simp at h1
      · obtain ⟨_, hnotin, hbch, hrest⟩ := wf_cons hb
        have hs0 : sizeOf (SchemaEntry.mk (some n) bch :: rest) =
            1 + sizeOf (SchemaEntry.mk (some n) bch) + sizeOf rest := by simp
        have hs1 : sizeOf (SchemaEntry.mk (some n) bch) = 1 + sizeOf (some n) + sizeOf bch := by
          simp
        have hs2 : (1 : Nat) ≤ sizeOf (some n) := by simp_arith
        have hs3 : (1 : Nat) ≤ sizeOf rest := by cases rest <;> simp_arith
        have hsz1 : sizeOf bch ≤ k := by omega
        have hsz2 : sizeOf rest ≤ k := by omega
        have hheadnm : (some n) ∈ (SchemaEntry.mk (some n) bch :: rest).map SchemaEntry.nm := by
          rw [List.map_cons]
          exact List.mem_cons_self _ _
        have hfind : findByNm n cur = findByNm n a := hinv n hheadnm
        have hmn_of : ∀ m : String, (some m) ∈ rest.map SchemaEntry.nm → m ≠ n := by
          intro m hm he
          rw [he] at hm
          rw [contains_false_iff] at hnotin
          exact hnotin hm
        have hbeqf : ∀ m : String, m ≠ n →
            ((SchemaEntry.mk (some n) bch).nm == some m) = false := by
          intro m hmn
          rw [show (SchemaEntry.mk (some n) bch).nm = some n from rfl, beq_eq_false_iff_ne]
          intro hc
          exact hmn (Option.some.inj hc).symm
        by_cases hmem : (some n) ∈ a.map SchemaEntry.nm
        · obtain ⟨ac, hacmem, hacnm⟩ := List.mem_map.1 hmem
          have hfaa : findByNm n a = some ac := findByNm_of_mem_nm ha hacmem hacnm
          have hfa : findByNm n cur = some ac := hfind.trans hfaa
          rw [mergeLoop, if_pos hmem, hfa]
          dsimp only
          by_cases hconf : bch.isEmpty ≠ ac.ch.isEmpty
          · rw [if_pos hconf]
            constructor
            · intro e he
              have he2 : schemaConflictMsg path n = e := Except.error.inj he
              rw [← he2]
              exact ConflictErr.here _ _ _ n ac (SchemaEntry.mk (some n) bch) hacmem
                (List.mem_cons_self _ _) hacnm rfl (fun hx => hconf hx.symm)
            · intro _
              exact ⟨schemaConflictMsg path n, rfl⟩
          · rw [if_neg hconf]
            have hconf2 : bch.isEmpty = ac.ch.isEmpty := not_ne_iff.1 hconf
            by_cases hempty : bch.isEmpty = true
            · rw [if_pos hempty]
              have hbchnil : bch = [] := by
                rcases bch with _ | ⟨x, xs⟩
                · rfl
                · exfalso
                  simp [List.isEmpty] at hempty
              have hinv2 : ∀ m : String, (some m) ∈ rest.map SchemaEntry.nm →
                  findByNm m (removeFirstNm n cur ++ [SchemaEntry.mk (some n) bch]) =
                  findByNm m a := by
                intro m hmrest
                have hmn := hmn_of m hmrest
                rw [findByNm_append_ne (hbeqf m hmn), findByNm_removeFirst_ne hmn]
                exact hinv m (by rw [List.map_cons]; exact List.mem_cons.2 (Or.inr hmrest))
              have ihtail := ih rest hsz2 a _ path ha hrest hinv2
              constructor
              · intro e he
                exact conflict_lift (ihtail.1 e he)
              · rintro ⟨e, hce⟩
                rcases conflict_cons_elim hce with ⟨ac2, hac2, n2, hac2n, hbc0n, hrest2⟩ | hcr
                · have hn2 : n2 = n := by
                    have h3 : some n = some n2 := hbc0n
                    exact (Option.some.inj h3).symm
                  subst hn2
                  have hfa2 : findByNm n2 a = some ac2 := findByNm_of_mem_nm ha hac2 hac2n
                  have hac2ac : ac2 = ac := Option.some.inj (hfa2.symm.trans hfaa)
                  rcases hrest2 with ⟨hmis, _⟩ | hdeep
                  · exfalso
                    apply hmis
                    rw [hac2ac]
                    rw [show (SchemaEntry.mk (some n2) bch).ch = bch from rfl]
                    exact hconf2.symm
                  · exfalso
                    rw [show (SchemaEntry.mk (some n2) bch).ch = bch from rfl, hbchnil] at hdeep
                    exact conflict_nil_b hdeep
                · obtain ⟨e2, he2⟩ := ihtail.2 ⟨e, hcr⟩
                  exact ⟨e2, he2⟩
            · rw [if_neg hempty]
              have ihchild := ih bch hsz1 ac.ch ac.ch (path ++ "." ++ n)
                (wf_children_of_mem ha hacmem) hbch (fun _ _ => rfl)
              rcases hch : mergeLoop (ac.ch.map SchemaEntry.nm) ac.ch bch (path ++ "." ++ n)
                with e0 | newCh
              · dsimp only
                constructor
                · intro e he
                  have he2 : e0 = e := Except.error.inj he
                  refine ConflictErr.deeper _ _ _ n _ ac (SchemaEntry.mk (some n) bch) hacmem
                    (List.mem_cons_self _ _) hacnm rfl ?_
                  rw [show (SchemaEntry.mk (some n) bch).ch = bch from rfl, ← he2]
                  exact ihchild.1 e0 hch
                · intro _
                  exact ⟨e0, rfl⟩
              · dsimp only
                have hinv2 : ∀ m : String, (some m) ∈ rest.map SchemaEntry.nm →
                    findByNm m (replaceFirstNm n (SchemaEntry.mk ac.nm newCh) cur) =
                    findByNm m a := by
                  intro m hmrest
                  have hmn := hmn_of m hmrest
                  rw [findByNm_replaceFirst_ne hmn
                    (show (SchemaEntry.mk ac.nm newCh).nm = some n from hacnm)]
                  exact hinv m (by rw [List.map_cons]; exact List.mem_cons.2 (Or.inr hmrest))
                have ihtail := ih rest hsz2 a _ path ha hrest hinv2
                constructor
                · intro e he
                  exact conflict_lift (ihtail.1 e he)
                · rintro ⟨e, hce⟩
                  rcases conflict_cons_elim hce with ⟨ac2, hac2, n2, hac2n, hbc0n, hrest2⟩ | hcr
                  · have hn2 : n2 = n := by
                      have h3 : some n = some n2 := hbc0n
                      exact (Option.some.inj h3).symm
                    subst hn2
                    have hfa2 : findByNm n2 a = some ac2 := findByNm_of_mem_nm ha hac2 hac2n
                    have hac2ac : ac2 = ac := Option.some.inj (hfa2.symm.trans hfaa)
                    rcases hrest2 with ⟨hmis, _⟩ | hdeep
                    · exfalso
                      apply hmis
                      rw [hac2ac]
                      rw [show (SchemaEntry.mk (some n2) bch).ch = bch from rfl]
                      exact hconf2.symm
                    · exfalso
                      rw [show (SchemaEntry.mk (some n2) bch).ch = bch from rfl, hac2ac] at hdeep
                      obtain ⟨e3, he3⟩ := ihchild.2 ⟨e, hdeep⟩
                      rw [hch] at he3
                      exact absurd he3 (by simp)
                  · obtain ⟨e2, he2⟩ := ihtail.2 ⟨e, hcr⟩
                    exact ⟨e2, he2⟩
        · rw [mergeLoop, if_neg hmem]
          have hinv2 : ∀ m : String, (some m) ∈ rest.map SchemaEntry.nm →
              findByNm m (cur ++ [SchemaEntry.mk (some n) bch]) = findByNm m a := by
            intro m hmrest
            have hmn := hmn_of m hmrest
            rw [findByNm_append_ne (hbeqf m hmn)]
            exact hinv m (by rw [List.map_cons]; exact List.mem_cons.2 (Or.inr hmrest))
          have ihtail := ih rest hsz2 a _ path ha hrest hinv2
          constructor
          · intro e he
            exact conflict_lift (ihtail.1 e he)
          · rintro ⟨e, hce⟩
            rcases conflict_cons_elim hce with ⟨ac2, hac2, n2, hac2n, hbc0n, _⟩ | hcr
            · exfalso
              apply hmem
              have hn2 : n2 = n := by
                have h3 : some n = some n2 := hbc0n
                exact (Option.some.inj h3).symm
              refine List.mem_map.2 ⟨ac2, hac2, ?_⟩
              rw [hac2n, hn2]
            · obtain ⟨e2, he2⟩ := ihtail.2 ⟨e, hcr⟩
              exact ⟨e2, he2⟩



/-- Claim C6: for every merge of schema tree `b` into schema tree `a` in which
every entry carries a name and sibling names are unique (`wfSchemaList`),
`_merge_schema_entries` fails if and only if at some corresponding position the
two trees contain same-named entries of which exactly one has child entries;
moreover any error it reports is the structural-conflict message naming the
dotted path of such a conflicting entry (the `ConflictErr` family). -/
theorem merge_schema_error_iff_conflict (a b : List SchemaEntry)
    (ha : wfSchemaList a = true) (hb : wfSchemaList b = true) :
    (∀ e, mergeEntries a b "" = Except.error e → ConflictErr a b "" e) ∧
    ((∃ e, ConflictErr a b "" e) →
      ∃ e, mergeEntries a b "" = Except.error e) :=
  mergeLoop_char (sizeOf b) b (le_refl _) a a "" ha hb (fun _ _ => rfl)

/-- Witness for C6 at a concrete conflicting pair of trees: `x` is a leaf in
`a` but has a child in `b`, so the merge reports an error. -/
theorem merge_schema_error_iff_conflict_witness :
    ∃ e, mergeEntries [SchemaEntry.mk (some "x") []]
      [SchemaEntry.mk (some "x") [SchemaEntry.mk (some "y") []]] "" = Except.error e := by
  have h := merge_schema_error_iff_conflict
    [SchemaEntry.mk (some "x") []]
    [SchemaEntry.mk (some "x") [SchemaEntry.mk (some "y") []]]
    (by simp [wfSchemaList, SchemaEntry.nm])
    (by simp [wfSchemaList, SchemaEntry.nm])
  exact h.2 ⟨schemaConflictMsg "" "x",
    ConflictErr.here _ _ _ "x" (SchemaEntry.mk (some "x") [])
      (SchemaEntry.mk (some "x") [SchemaEntry.mk (some "y") []])
      (List.mem_singleton.2 rfl) (List.mem_singleton.2 rfl) rfl rfl (by simp [SchemaEntry.ch])⟩

end Components
